import Mathlib

/-!
# modv: module graph builder

A shallow embedding of `graph/graph.go` (package `graph` of `rpadrela/modv`) and
theorems about the identifier functions, `ModuleGraph.Parse` and `ModuleGraph.Render`.

Modelling conventions.

* A Go `string` / `[]byte` is a `List Char` (type `Str`): the input is taken to be valid
  UTF-8 and is represented by its code points.  The separators the code looks for
  (`' '`, `'\n'`, `'@'`, `'/'`) are ASCII, so splitting and slicing by byte and by code
  point agree, and bytewise string comparison agrees with code-point-wise comparison.
* A Go `map` is an association list with unique keys, kept in insertion order.
* `*module` values are never mutated after creation, so pointers are modelled by values
  and a nil pointer by `none`.
* A run-time panic is an explicit outcome (`Panic`), distinct from a returned `error`.
* `Render` is the text that the execution of `graphTemplate` writes; a `range` over a map
  visits the keys in sorted order, as `text/template` does.
-/

namespace Modv

/-- A Go string, as the list of its code points. -/
abbrev Str := List Char

/-! ## Standard-library functions used by the code -/

/-- Go `unicode.IsSpace`: the Latin-1 white space characters and the `White_Space`
property beyond Latin-1. -/
def isSpace (r : Char) : Bool :=
  let n := r.toNat
  n == 9 || n == 10 || n == 11 || n == 12 || n == 13 || n == 32 || n == 0x85 || n == 0xA0
    || n == 0x1680 || (0x2000 ≤ n && n ≤ 0x200a) || n == 0x2028 || n == 0x2029
    || n == 0x202f || n == 0x205f || n == 0x3000

/-- Go `strings.TrimSpace`: drop leading and trailing white space. -/
def trimSpace (s : Str) : Str :=
  ((s.dropWhile isSpace).reverse.dropWhile isSpace).reverse

/-- Go `bytes.Split(s, sep)` / `strings.Split` for a one-character separator: the pieces
between the separators (always at least one piece). -/
def bytesSplit (sep : Char) : Str → List Str
  | [] => [[]]
  | c :: cs =>
    if c = sep then [] :: bytesSplit sep cs
    else
      match bytesSplit sep cs with
      | [] => [[c]]
      | w :: ws => (c :: w) :: ws

/-- Go `strings.SplitAfter(s, sep)` for a one-character separator: like `Split`, but each
piece keeps the separator that ends it. -/
def splitAfter (sep : Char) : Str → List Str
  | [] => [[]]
  | c :: cs =>
    if c = sep then [c] :: splitAfter sep cs
    else
      match splitAfter sep cs with
      | [] => [[c]]
      | w :: ws => (c :: w) :: ws

/-- Go `strings.TrimRight(s, cutset)` for a one-character cutset. -/
def trimRight (s : Str) (cut : Char) : Str :=
  (s.reverse.dropWhile (fun c => c == cut)).reverse

/-- Go `strings.LastIndexAny(s, chars)` for a one-character `chars`; `none` is `-1`. -/
def lastIndexAny : Str → Char → Option Nat
  | [], _ => none
  | x :: xs, c =>
    match lastIndexAny xs c with
    | some i => some (i + 1)
    | none => if x = c then some 0 else none

/-- Go string comparison `a < b`: lexicographic on the bytes of the UTF-8 encoding, which
is lexicographic on code points. -/
def strLt : Str → Str → Bool
  | [], [] => false
  | [], _ :: _ => true
  | _ :: _, [] => false
  | a :: as, b :: bs => a.toNat < b.toNat || (a.toNat == b.toNat && strLt as bs)

/-- Go `sort.StringsAreSorted`: no element is smaller than its predecessor. -/
def stringsAreSorted : List Str → Bool
  | [] => true
  | [_] => true
  | a :: b :: rest => !strLt b a && stringsAreSorted (b :: rest)

/-- The loop of Go `sort.Search`: `i, j` are the loop variables; the first argument bounds
the number of iterations. -/
def searchLoop (f : Nat → Bool) : Nat → Nat → Nat → Nat
  | 0, i, _ => i
  | fuel + 1, i, j =>
    if i < j then
      let h := (i + j) / 2
      if !f h then searchLoop f fuel (h + 1) j else searchLoop f fuel i h
    else i

/-- Go `sort.Search(n, f)`: binary search for the least index in `[0, n)` at which `f` is
true (`n` if there is none).  The interval halves at every iteration, so `n` iterations
are enough. -/
def sortSearch (n : Nat) (f : Nat → Bool) : Nat :=
  searchLoop f n 0 n

/-! ## Data model -/

/-- The Go struct `module`. -/
structure Module where
  ID : Nat
  Path : Str
  Name : Str
  Version : Str
deriving DecidableEq, Repr

/-- The Go struct `ParseOptions`. -/
structure ParseOptions where
  IgnoreVersion : Bool
  IgnoreModules : List Str
  IgnoreIndirect : Bool
deriving DecidableEq, Repr

/-- An error value other than `io.EOF` reported by the underlying reader. -/
structure ReadError where
  text : String
deriving DecidableEq, Repr

/-- An `io.Reader`: the data it delivers, then either end of file (`failure = none`) or
a read error. -/
structure Reader where
  data : Str
  failure : Option ReadError
deriving DecidableEq, Repr

/-- The Go struct `ModuleGraph`. -/
structure ModuleGraph where
  Reader : Reader
  Mods : List (Str × Module)
  Dependencies : List (Nat × List Nat)
deriving DecidableEq, Repr

/-- Go map read `m[k]` with the comma-ok form: `none` when the key is absent. -/
def mapGet {κ ν : Type} [DecidableEq κ] : List (κ × ν) → κ → Option ν
  | [], _ => none
  | (k', v) :: m, k => if k' = k then some v else mapGet m k

/-- Go map write `m[k] = v`. -/
def mapSet {κ ν : Type} [DecidableEq κ] : List (κ × ν) → κ → ν → List (κ × ν)
  | [], k, v => [(k, v)]
  | (k', v') :: m, k, v => if k' = k then (k, v) :: m else (k', v') :: mapSet m k v

/-- Go `m.Dependencies[from]`: the zero value (nil slice) when the key is absent. -/
def depsOf (deps : List (Nat × List Nat)) (src : Nat) : List Nat :=
  (mapGet deps src).getD []

/-- Go `NewModuleGraph`. -/
def NewModuleGraph (r : Reader) : ModuleGraph :=
  { Reader := r, Mods := [], Dependencies := [] }

/-! ## Identifier functions -/

/-- Go `stripModulePath`. -/
def stripModulePath (mod : Str) : Str :=
  match lastIndexAny mod '/' with
  | none => mod
  | some index => mod.drop (index + 1)

/-- Go `stripModuleVersion`: the first piece of `SplitAfter(mod, "@")` with its trailing
`'@'` characters removed. -/
def stripModuleVersion (mod : Str) : Str :=
  trimRight ((splitAfter '@' mod).headD []) '@'

/-- Go `getModulePath`. -/
def getModulePath (mod : Str) : Str :=
  let mod := stripModuleVersion mod
  match lastIndexAny mod '/' with
  | none => []
  | some index => mod.take index

/-- Go `getModuleVersion`. -/
def getModuleVersion (mod : Str) : Str :=
  match lastIndexAny mod '@' with
  | none => []
  | some index => mod.drop (index + 1)

/-- Go `getModuleName`. -/
def getModuleName (mod : Str) : Str :=
  stripModulePath (stripModuleVersion mod)

/-! ## Graph builder -/

/-- A Go run-time panic. -/
inductive Panic where
  /-- An index expression out of range: `index out of range [index] with length length`. -/
  | indexOutOfRange (index length : Nat)
  /-- An explicit call `panic(text)`. -/
  | message (text : String)
deriving DecidableEq, Repr

/-- Go `ModuleGraph.hasDependency`. -/
def hasDependency (deps : List (Nat × List Nat)) (src dst : Nat) : Bool :=
  (depsOf deps src).any (fun d => d == dst)

/-- Go `isStringInSortedArray`: panics unless `a` is sorted, then binary search. -/
def isStringInSortedArray (s : Str) (a : List Str) : Except Panic Bool :=
  if !stringsAreSorted a then .error (.message "Strings expected to be sorted")
  else
    let count := a.length
    let index := sortSearch count (fun i => !strLt (a.getD i []) s)
    .ok (decide (index < count) && decide (a.getD index [] = s))

/-- The variables of `Parse` that live across loop iterations. -/
structure LoopState where
  topModule : Str
  serialID : Nat
  Mods : List (Str × Module)
  Dependencies : List (Nat × List Nat)
deriving DecidableEq, Repr

/-- Lines 180-187 (and, for the child, 189-196) of `Parse`: unless the key is excluded,
look the module up under its key and create it from the raw identifier if absent.  The
result is the module pointer (`none` for nil). -/
def resolveModule (options : ParseOptions) (st : LoopState) (modified raw : Str) :
    Except Panic (LoopState × Option Module) :=
  match isStringInSortedArray modified options.IgnoreModules with
  | .error p => .error p
  | .ok true => .ok (st, none)
  | .ok false =>
    match mapGet st.Mods modified with
    | some md => .ok (st, some md)
    | none =>
      let md : Module :=
        { ID := st.serialID, Path := getModulePath raw, Name := getModuleName raw,
          Version := getModuleVersion raw }
      .ok ({ st with Mods := mapSet st.Mods modified md, serialID := st.serialID + 1 }, some md)

/-- Line 198-200 of `Parse`: record the edge unless a side is nil or the edge is known. -/
def addDependency (st : LoopState) : Option Module → Option Module → LoopState
  | some md, some depmd =>
    if !hasDependency st.Dependencies md.ID depmd.ID then
      { st with Dependencies :=
          mapSet st.Dependencies md.ID (depsOf st.Dependencies md.ID ++ [depmd.ID]) }
    else st
  | _, _ => st

/-- Lines 160-200 of `Parse`: the loop body once `mod` and `depMod` are known.  The pair
is the state with which the body was left: at a panic, the state reached so far. -/
def processRecord (options : ParseOptions) (st : LoopState) (mod depMod : Str) :
    LoopState × Option Panic :=
  let modifiedMod := if options.IgnoreVersion then stripModuleVersion mod else mod
  let modifiedDepMod := if options.IgnoreVersion then stripModuleVersion depMod else depMod
  let st := { st with topModule := if st.topModule = [] then modifiedMod else st.topModule }
  let isIndirect := decide (st.topModule ≠ modifiedMod)
  if options.IgnoreIndirect && isIndirect then (st, none)
  else
    match resolveModule options st modifiedMod mod with
    | .error p => (st, some p)
    | .ok (st1, md) =>
      match resolveModule options st1 modifiedDepMod depMod with
      | .error p => (st1, some p)
      | .ok (st2, depmd) => (addDependency st2 md depmd, none)

/-- Lines 157-158 of `Parse`: split the line at every space and trim the first two pieces
(`mod`, `depMod`); `relation[1]` panics when the line has no space. -/
def splitRelation (relationBytes : Str) : Except Panic (Str × Str) :=
  match bytesSplit ' ' relationBytes with
  | r0 :: r1 :: _ => .ok (trimSpace r0, trimSpace r1)
  | relation => .error (.indexOutOfRange 1 relation.length)

/-- Lines 157-200 of `Parse`: one loop iteration on a non-empty `relationBytes`. -/
def parseRelation (options : ParseOptions) (st : LoopState) (relationBytes : Str) :
    LoopState × Option Panic :=
  match splitRelation relationBytes with
  | .ok (mod, depMod) => processRecord options st mod depMod
  | .error p => (st, some p)

/-- The successive non-empty results of `bufReader.ReadBytes('\n')` on the given data:
every chunk ends with the delimiter, except possibly the last one. -/
def readChunks : Str → List Str
  | [] => []
  | c :: cs =>
    if c = '\n' then [c] :: readChunks cs
    else
      match readChunks cs with
      | [] => [[c]]
      | l :: ls => (c :: l) :: ls

/-- The chunks that `ReadBytes('\n')` returns without a read error: all of them when the
reader ends with `io.EOF`; only those that reached their delimiter when it ends with an
error (the data read before the error comes back together with the error). -/
def Reader.chunks (r : Reader) : List Str :=
  match r.failure with
  | none => readChunks r.data
  | some _ => (readChunks r.data).filter (fun l => l.getLast? == some '\n')

/-- The `for` loop of `Parse` over the chunks still to be read; at the end of the chunks
the next read is empty (`return nil`) or fails (`return err`). -/
def parseLoop (options : ParseOptions) (failure : Option ReadError) :
    LoopState → List Str → LoopState × Except Panic (Option ReadError)
  | st, [] => (st, .ok failure)
  | st, relationBytes :: rest =>
    match parseRelation options st relationBytes with
    | (st1, some p) => (st1, .error p)
    | (st1, none) => parseLoop options failure st1 rest

/-- How a call of `Parse` ends, with the module graph as the call leaves it. -/
inductive ParseResult where
  /-- `Parse` returned `err` (`none` is nil). -/
  | returned (err : Option ReadError) (m : ModuleGraph)
  /-- `Parse` panicked. -/
  | panicked (p : Panic) (m : ModuleGraph)
deriving DecidableEq, Repr

/-- Go `ModuleGraph.Parse`. -/
def Parse (m : ModuleGraph) (options : ParseOptions) : ParseResult :=
  let st0 : LoopState :=
    { topModule := [], serialID := 1, Mods := m.Mods, Dependencies := m.Dependencies }
  match parseLoop options m.Reader.failure st0 m.Reader.chunks with
  | (st, .ok err) => .returned err { m with Mods := st.Mods, Dependencies := st.Dependencies }
  | (st, .error p) => .panicked p { m with Mods := st.Mods, Dependencies := st.Dependencies }

/-- A reader over in-memory data, as `bytes.NewReader(data)`: it ends with `io.EOF`. -/
def bytesReader (data : Str) : Reader :=
  { data := data, failure := none }

/-- A reader over an in-memory text, as `bytes.NewReader([]byte(text))`. -/
def textReader (text : String) : Reader :=
  bytesReader text.toList

/-- The module graph with which a call of `Parse` ends. -/
def ParseResult.graph : ParseResult → ModuleGraph
  | .returned _ m => m
  | .panicked _ m => m

/-- The default options (the zero value of `ParseOptions`). -/
def defaultOptions : ParseOptions :=
  { IgnoreVersion := false, IgnoreModules := [], IgnoreIndirect := false }

/-! ## Graph serializer -/

/-- The Go struct `RenderOptions`. -/
structure RenderOptions where
  HidePath : Bool
  HideVersion : Bool
deriving DecidableEq, Repr

/-- How `text/template` prints an `int`: its decimal digits. -/
def formatInt (n : Nat) : Str :=
  Nat.toDigits 10 n

/-- The order in which a `range` of `text/template` visits `.mods`: a map with keys of a
basic type is visited in sorted key order. -/
def modsInKeyOrder (mods : List (Str × Module)) : List (Str × Module) :=
  mods.insertionSort (fun a b => strLt b.1 a.1 = false)

/-- The order in which a `range` of `text/template` visits `.dependencies`: ascending
key. -/
def depsInKeyOrder (deps : List (Nat × List Nat)) : List (Nat × List Nat) :=
  deps.insertionSort (fun a b => a.1 ≤ b.1)

/-- One iteration of the range over `.mods` (lines 20-22 of `graphTemplate`): the line
break after the `range` action, then line 21; the line break after `"]` is trimmed by the
`end` action that follows it. -/
def nodeLine (hidePath hideVersion : Bool) (mod : Module) : Str :=
  "\n".toList ++ formatInt mod.ID ++ " [label=\"".toList
    ++ (if !hidePath then mod.Path ++ "/".toList else [])
    ++ mod.Name
    ++ (if !hideVersion then "\n".toList ++ mod.Version else [])
    ++ "\"]".toList

/-- The inner range of lines 24-26 of `graphTemplate` for one source: line 25 with its
line break for every target; the white space around it is trimmed. -/
def edgeLines (modId : Nat) (depModIds : List Nat) : Str :=
  depModIds.flatMap
    (fun depModId => formatInt modId ++ " -> ".toList ++ formatInt depModId ++ ";\n".toList)

/-- Execution of `graphTemplate` on the data that `Render` passes to it; the text
between the actions is the text of the template after its trim markers are applied. -/
def executeGraphTemplate (mods : List (Str × Module)) (dependencies : List (Nat × List Nat))
    (direction : Str) (hidePath hideVersion : Bool) : Str :=
  "digraph \x7b".toList
    ++ (if direction = "horizontal".toList then "rankdir=LR;".toList else [])
    ++ "\nnode [shape=box];".toList
    ++ (modsInKeyOrder mods).flatMap (fun e => nodeLine hidePath hideVersion e.2)
    ++ "\n".toList
    ++ (depsInKeyOrder dependencies).flatMap (fun e => edgeLines e.1 e.2)
    ++ "\x7d\n".toList

/-- Go `ModuleGraph.Render`: the text written to `w` (the template is a constant that
parses, and a writer in memory does not fail, so no error is returned). -/
def Render (m : ModuleGraph) (options : RenderOptions) : Str :=
  let direction : Str := if m.Dependencies.length > 15 then "horizontal".toList else []
  executeGraphTemplate m.Mods m.Dependencies direction options.HidePath options.HideVersion

/-! ## Vocabulary of the specification -/

/-- The node statement of the spec: `<ID> [label="<label>"]`, the label being the name,
preceded by the path and `'/'` unless the path is hidden, and followed by a line break and
the version unless the version is hidden. -/
def nodeStatement (options : RenderOptions) (md : Module) : Str :=
  formatInt md.ID ++ " [label=\"".toList
    ++ ((if options.HidePath then md.Name else md.Path ++ '/' :: md.Name)
      ++ (if options.HideVersion then [] else '\n' :: md.Version))
    ++ "\"]".toList

/-- The edge statement of the spec: `<sourceId> -> <targetId>;`. -/
def edgeStatement (sourceId targetId : Nat) : Str :=
  formatInt sourceId ++ " -> ".toList ++ formatInt targetId ++ ";".toList

/-- The graph that `Parse` builds from `"a b\nc d\nb e\n"`: the sources received their
first edge in the order 1, 3, 2. -/
def threeSourcesGraph : ModuleGraph :=
  (Parse (NewModuleGraph (textReader "a b\nc d\nb e\n")) defaultOptions).graph


/-- An identifier of the input grammar: non-empty, without a space and without a line
break. -/
def IsIdent (s : Str) : Prop :=
  s ≠ [] ∧ ' ' ∉ s ∧ '\n' ∉ s

/-- The input text made of the records `parent child`, one per line; `finalNewline` tells
whether the last line ends with a line break too. -/
def encodeRecords (finalNewline : Bool) : List (Str × Str) → Str
  | [] => []
  | [r] => r.1 ++ ' ' :: r.2 ++ (if finalNewline then ['\n'] else [])
  | r :: r' :: rest => r.1 ++ ' ' :: r.2 ++ '\n' :: encodeRecords finalNewline (r' :: rest)

/-- The whitespace-trimmed parent and child identifiers of the records. -/
def trimRecords (recs : List (Str × Str)) : List (Str × Str) :=
  recs.map (fun r => (trimSpace r.1, trimSpace r.2))

/-- The module key of a raw identifier under the folding policy. -/
def moduleKey (options : ParseOptions) (raw : Str) : Str :=
  if options.IgnoreVersion then stripModuleVersion raw else raw

/-- The records that the loop does not skip, given the value of `topModule` before the
first of them: a record is skipped when indirect suppression is on and its parent key
differs from `topModule`, which is set from the record itself while it is still empty. -/
def keptRecords (options : ParseOptions) : Str → List (Str × Str) → List (Str × Str)
  | _, [] => []
  | top, r :: rest =>
    let top1 := if top = [] then moduleKey options r.1 else top
    if options.IgnoreIndirect && decide (top1 ≠ moduleKey options r.1) then
      keptRecords options top1 rest
    else r :: keptRecords options top1 rest

/-- The raw identifiers of the given records whose key is not excluded, parent before
child, records in order. -/
def includedTokens (options : ParseOptions) (recs : List (Str × Str)) : List Str :=
  (recs.flatMap (fun r => [r.1, r.2])).filter
    (fun raw => decide (moduleKey options raw ∉ options.IgnoreModules))

/-- The first occurrence of every key: an element is kept unless an earlier element has
the same key. -/
def firstSeen {α κ : Type} [DecidableEq κ] (key : α → κ) : List α → List α
  | [] => []
  | x :: xs => x :: (firstSeen key xs).filter (fun y => decide (key y ≠ key x))

/-- The module with identifier `id` built from a raw identifier. -/
def newModule (id : Nat) (raw : Str) : Module :=
  { ID := id, Path := getModulePath raw, Name := getModuleName raw,
    Version := getModuleVersion raw }

/-- The module table in which the first occurrences of the keys of `toks`, in order, are
numbered from 1 and every module is built from the raw identifier seen first. -/
def expectedMods (options : ParseOptions) (toks : List Str) : List (Str × Module) :=
  ((firstSeen (moduleKey options) toks).enumFrom 1).map
    (fun e => (moduleKey options e.2, newModule e.1 e.2))

/-- The identifier of the module stored under a key. -/
def moduleID (mods : List (Str × Module)) (key : Str) : Option Nat :=
  (mapGet mods key).map (fun md => md.ID)

/-- The edge that a record stands for: none when a side is excluded or has no module. -/
def edgeOf (options : ParseOptions) (mods : List (Str × Module)) (r : Str × Str) :
    Option (Nat × Nat) :=
  if moduleKey options r.1 ∈ options.IgnoreModules
      ∨ moduleKey options r.2 ∈ options.IgnoreModules then none
  else
    match moduleID mods (moduleKey options r.1), moduleID mods (moduleKey options r.2) with
    | some u, some v => some (u, v)
    | _, _ => none

/-- The targets of the edges out of `u` among the edges of the given records, in order
of occurrence (with repetitions). -/
def targetsOf (options : ParseOptions) (mods : List (Str × Module))
    (recs : List (Str × Str)) (u : Nat) : List Nat :=
  ((recs.filterMap (edgeOf options mods)).filter (fun e => decide (e.1 = u))).map
    (fun e => e.2)

/-- The spec's `withoutVersion(id)`: the identifier with its last `'@'` and everything
after it removed, and the identifier itself when it has no `'@'`. -/
def withoutVersionSpec (id : Str) : Str :=
  match lastIndexAny id '@' with
  | none => id
  | some index => id.take index

/-- Options used to instantiate the theorems: version folding with two excluded keys. -/
def exampleOptions : ParseOptions :=
  { IgnoreVersion := true, IgnoreModules := ["c".toList, "x".toList], IgnoreIndirect := false }

/-- Records used to instantiate the theorems. -/
def exampleRecords : List (Str × Str) :=
  [("a/b@v1".toList, "c".toList), ("a/b@v2".toList, "d@v2".toList),
    ("d@v3".toList, "a/b@v1".toList), ("a/b@v2".toList, "d@v2".toList)]

/-- The loop invariant of `Parse` for a sorted exclusion list: `st` is the state reached
after the records `done` have been processed (not skipped).  The module table is the one
expected for their included identifiers, `serialID` is the next free identifier, every
adjacency list holds the first occurrences of the targets of its source, and the
adjacency table mentions identifiers of stored modules only. -/
def Represents (options : ParseOptions) (done : List (Str × Str)) (st : LoopState) : Prop :=
  st.Mods = expectedMods options (includedTokens options done) ∧
  st.serialID = st.Mods.length + 1 ∧
  (∀ u, depsOf st.Dependencies u = firstSeen id (targetsOf options st.Mods done u)) ∧
  (∀ e ∈ st.Dependencies,
    (∃ k md, mapGet st.Mods k = some md ∧ md.ID = e.1) ∧
      ∀ v ∈ e.2, ∃ k md, mapGet st.Mods k = some md ∧ md.ID = v)

/-- The loop body applied to a list of records (`mod`, `depMod`) in turn, stopping at the
first panic. -/
def runRecords (options : ParseOptions) : LoopState → List (Str × Str) → LoopState × Option Panic
  | st, [] => (st, none)
  | st, r :: rest =>
    match processRecord options st r.1 r.2 with
    | (st1, some p) => (st1, some p)
    | (st1, none) => runRecords options st1 rest

end Modv

namespace Modv

/-! ## The string order -/

theorem strLt_irrefl (a : Str) : strLt a a = false := by
  induction a with
  | nil => rfl
  | cons x xs ih => simp [strLt, ih]

theorem strLt_trans : ∀ (a b c : Str), strLt a b = true → strLt b c = true → strLt a c = true
  | [], [], _, h, _ => by simp [strLt] at h
  | [], _ :: _, [], _, h => by simp [strLt] at h
  | [], _ :: _, _ :: _, _, _ => by simp [strLt]
  | _ :: _, [], _, h, _ => by simp [strLt] at h
  | _ :: _, _ :: _, [], _, h => by simp [strLt] at h
  | x :: xs, y :: ys, z :: zs, h1, h2 => by
    simp only [strLt, Bool.or_eq_true, decide_eq_true_eq, Bool.and_eq_true, beq_iff_eq] at h1 h2 ⊢
    rcases h1 with h1 | ⟨e1, h1⟩
    · rcases h2 with h2 | ⟨e2, _⟩
      · left; omega
      · left; omega
    · rcases h2 with h2 | ⟨e2, h2⟩
      · left; omega
      · right; exact ⟨by omega, strLt_trans xs ys zs h1 h2⟩

theorem char_eq_of_toNat_eq {x y : Char} (h : x.toNat = y.toNat) : x = y := by
  apply Char.ext
  apply UInt32.ext
  simpa [Char.toNat, UInt32.toNat] using h

theorem strLt_total : ∀ (a b : Str), strLt a b = false → strLt b a = false → a = b
  | [], [], _, _ => rfl
  | [], _ :: _, h, _ => by simp [strLt] at h
  | _ :: _, [], _, h => by simp [strLt] at h
  | x :: xs, y :: ys, h1, h2 => by
    simp only [strLt, Bool.or_eq_false_iff, decide_eq_false_iff_not, Bool.and_eq_false_iff,
      beq_eq_false_iff_ne, ne_eq] at h1 h2
    have e : x.toNat = y.toNat := by omega
    have hx : x = y := char_eq_of_toNat_eq e
    have t1 : strLt xs ys = false := by
      rcases h1.2 with h | h
      · exact absurd e h
      · exact h
    have t2 : strLt ys xs = false := by
      rcases h2.2 with h | h
      · exact absurd e.symm h
      · exact h
    rw [hx, strLt_total xs ys t1 t2]

/-- The relation `a ≤ b` (that is, not `b < a`) is transitive. -/
theorem strLe_trans (a b c : Str) (h1 : strLt b a = false) (h2 : strLt c b = false) :
    strLt c a = false := by
  by_contra h
  have hca : strLt c a = true := by simpa using h
  cases hab : strLt a b with
  | true =>
    have := strLt_trans c a b hca hab
    simp [this] at h2
  | false =>
    have e := strLt_total a b hab h1
    subst e
    simp [hca] at h2

end Modv

namespace Modv

/-! ## Binary search -/

/-- The loop invariant of `sort.Search` for a predicate that is monotone below `n`. -/
theorem searchLoop_spec (f : Nat → Bool) (n : Nat)
    (hmono : ∀ i j, i ≤ j → j < n → f i = true → f j = true) :
    ∀ (fuel i j : Nat), i ≤ j → j ≤ n → j - i ≤ fuel →
      (∀ k, k < i → f k = false) → (j < n → f j = true) →
      searchLoop f fuel i j ≤ n ∧ (∀ k, k < searchLoop f fuel i j → f k = false) ∧
        (searchLoop f fuel i j < n → f (searchLoop f fuel i j) = true) := by
  intro fuel
  induction fuel with
  | zero =>
    intro i j hij hjn hfuel hlo hhi
    have e : i = j := by omega
    subst e
    simp only [searchLoop]
    exact ⟨hjn, hlo, hhi⟩
  | succ fuel ih =>
    intro i j hij hjn hfuel hlo hhi
    simp only [searchLoop]
    by_cases hlt : i < j
    · simp only [hlt, if_true]
      have hh1 : i ≤ (i + j) / 2 := by omega
      have hh2 : (i + j) / 2 < j := by omega
      cases hf : f ((i + j) / 2) with
      | false =>
        simp only [Bool.not_false, if_true]
        apply ih ((i + j) / 2 + 1) j (by omega) hjn (by omega) _ hhi
        intro k hk
        cases hk2 : f k with
        | false => rfl
        | true =>
          have := hmono k ((i + j) / 2) (by omega) (by omega) hk2
          simp [hf] at this
      | true =>
        simp only [Bool.not_true, Bool.false_eq_true, if_false]
        exact ih i ((i + j) / 2) hh1 (by omega) (by omega) hlo (fun _ => hf)
    · have e : i = j := by omega
      subst e
      simp only [hlt, if_false]
      exact ⟨hjn, hlo, hhi⟩

/-- A list accepted by `sort.StringsAreSorted` is pairwise ordered. -/
theorem pairwise_of_stringsAreSorted :
    ∀ (a : List Str), stringsAreSorted a = true → a.Pairwise (fun x y => strLt y x = false)
  | [], _ => List.Pairwise.nil
  | [_], _ => by simp
  | x :: y :: rest, h => by
    simp only [stringsAreSorted, Bool.and_eq_true, Bool.not_eq_true'] at h
    have ih := pairwise_of_stringsAreSorted (y :: rest) h.2
    refine List.Pairwise.cons ?_ ih
    intro z hz
    rcases List.mem_cons.1 hz with e | hz
    · rw [e]; exact h.1
    · exact strLe_trans x y z h.1 ((List.pairwise_cons.1 ih).1 z hz)

theorem getD_le_of_sorted (a : List Str) (hs : stringsAreSorted a = true) (i j : Nat)
    (hij : i ≤ j) (hj : j < a.length) : strLt (a.getD j []) (a.getD i []) = false := by
  have hp := pairwise_of_stringsAreSorted a hs
  have hi : i < a.length := by omega
  rw [List.getD_eq_getElem a [] hj, List.getD_eq_getElem a [] hi]
  rcases Nat.lt_or_eq_of_le hij with h | h
  · exact (List.pairwise_iff_getElem.1 hp) i j hi hj h
  · subst h; exact strLt_irrefl _

/-- The index found by the search decides membership in a sorted list. -/
theorem search_result_mem (s : Str) (a : List Str) (hs : stringsAreSorted a = true) (r : Nat)
    (hlo : ∀ k, k < r → strLt (a.getD k []) s = true)
    (hhi : r < a.length → strLt (a.getD r []) s = false) :
    (decide (r < a.length) && decide (a.getD r [] = s)) = decide (s ∈ a) := by
  by_cases hmem : s ∈ a
  · obtain ⟨k, hk, hks⟩ := List.getElem_of_mem hmem
    have hkD : a.getD k [] = s := by rw [List.getD_eq_getElem a [] hk]; exact hks
    have hrk : r ≤ k := by
      by_contra hlt
      have h := hlo k (by omega)
      rw [hkD, strLt_irrefl] at h
      exact Bool.noConfusion h
    have hr : r < a.length := by omega
    have h2 : strLt s (a.getD r []) = false := by
      have := getD_le_of_sorted a hs r k hrk hk
      rwa [hkD] at this
    have e : a.getD r [] = s := strLt_total _ _ (hhi hr) h2
    rw [decide_eq_true hmem, decide_eq_true hr, decide_eq_true e]
    rfl
  · simp only [hmem, decide_False, Bool.and_eq_false_iff, decide_eq_false_iff_not]
    by_cases hr : r < a.length
    · right
      intro e
      apply hmem
      rw [← e, List.getD_eq_getElem a [] hr]
      exact List.getElem_mem hr
    · left; exact hr

/-- On a sorted list the binary search of `isStringInSortedArray` is plain membership. -/
theorem isStringInSortedArray_of_sorted (s : Str) (a : List Str)
    (hs : stringsAreSorted a = true) : isStringInSortedArray s a = .ok (decide (s ∈ a)) := by
  have hmono : ∀ i j, i ≤ j → j < a.length →
      (fun i => !strLt (a.getD i []) s) i = true → (fun i => !strLt (a.getD i []) s) j = true := by
    intro i j hij hj hi
    simp only [Bool.not_eq_true'] at hi ⊢
    exact strLe_trans s (a.getD i []) (a.getD j []) hi (getD_le_of_sorted a hs i j hij hj)
  have spec := searchLoop_spec (fun i => !strLt (a.getD i []) s) a.length hmono a.length 0
    a.length (Nat.zero_le _) (Nat.le_refl _) (by omega) (fun k hk => absurd hk (Nat.not_lt_zero k))
    (fun h => absurd h (Nat.lt_irrefl _))
  obtain ⟨_, hlo, hhi⟩ := spec
  simp only [isStringInSortedArray, hs, Bool.not_true, Bool.false_eq_true, if_false, sortSearch]
  congr 1
  apply search_result_mem s a hs
  · intro k hk
    simpa using hlo k hk
  · intro hr
    simpa using hhi hr

end Modv

namespace Modv

/-! ## Reading and splitting well-formed input -/

theorem bytesSplit_ne_nil (sep : Char) (s : Str) : bytesSplit sep s ≠ [] := by
  induction s with
  | nil => simp [bytesSplit]
  | cons c cs ih =>
    simp only [bytesSplit]
    split
    · simp
    · split <;> simp

theorem bytesSplit_of_not_mem (sep : Char) (s : Str) (h : sep ∉ s) : bytesSplit sep s = [s] := by
  induction s with
  | nil => rfl
  | cons c cs ih =>
    have hc : c ≠ sep := fun e => h (by simp [e])
    have hcs : sep ∉ cs := fun e => h (List.mem_cons_of_mem _ e)
    simp [bytesSplit, hc, ih hcs]

theorem bytesSplit_append_sep (sep : Char) (p t : Str) (h : sep ∉ p) :
    bytesSplit sep (p ++ sep :: t) = p :: bytesSplit sep t := by
  induction p with
  | nil => simp [bytesSplit]
  | cons c cs ih =>
    have hc : c ≠ sep := fun e => h (by simp [e])
    have hcs : sep ∉ cs := fun e => h (List.mem_cons_of_mem _ e)
    simp [bytesSplit, hc, ih hcs]

theorem trimSpace_cons_space (x : Char) (s : Str) (hx : isSpace x = true) :
    trimSpace (x :: s) = trimSpace s := by
  simp [trimSpace, List.dropWhile_cons, hx]

theorem trimSpace_concat_space (s : Str) (x : Char) (hx : isSpace x = true) :
    trimSpace (s ++ [x]) = trimSpace s := by
  induction s with
  | nil => simp [trimSpace, List.dropWhile_cons, hx]
  | cons a s ih =>
    by_cases ha : isSpace a = true
    · rw [List.cons_append, trimSpace_cons_space a _ ha, trimSpace_cons_space a _ ha, ih]
    · have h1 : (a :: s ++ [x]).dropWhile isSpace = a :: s ++ [x] := by
        simp [List.dropWhile_cons, ha]
      have h2 : (a :: s).dropWhile isSpace = a :: s := by
        simp [List.dropWhile_cons, ha]
      simp only [trimSpace, List.cons_append] at h1 ⊢
      rw [h1, h2]
      simp [List.dropWhile_cons, hx]

theorem readChunks_of_not_mem (l : Str) (hne : l ≠ []) (h : '\n' ∉ l) : readChunks l = [l] := by
  induction l with
  | nil => exact absurd rfl hne
  | cons c cs ih =>
    have hc : c ≠ '\n' := fun e => h (by simp [e])
    have hcs : '\n' ∉ cs := fun e => h (List.mem_cons_of_mem _ e)
    cases cs with
    | nil => simp [readChunks, hc]
    | cons d ds =>
      have := ih (by simp) hcs
      simp [readChunks, hc] at this ⊢
      simp [this]

theorem readChunks_line (l rest : Str) (h : '\n' ∉ l) :
    readChunks (l ++ '\n' :: rest) = (l ++ ['\n']) :: readChunks rest := by
  induction l with
  | nil => simp [readChunks]
  | cons c cs ih =>
    have hc : c ≠ '\n' := fun e => h (by simp [e])
    have hcs : '\n' ∉ cs := fun e => h (List.mem_cons_of_mem _ e)
    simp [readChunks, hc, ih hcs]

/-- One loop iteration on the line of a record of identifiers, with or without its line
break, is the loop body on the trimmed identifiers. -/
theorem parseRelation_line (options : ParseOptions) (st : LoopState) (p c : Str)
    (hp : ' ' ∉ p) (hc : ' ' ∉ c) (nl : Bool) :
    parseRelation options st (p ++ ' ' :: c ++ (if nl then ['\n'] else []))
      = processRecord options st (trimSpace p) (trimSpace c) := by
  have hsplit : bytesSplit ' ' (p ++ ' ' :: c ++ (if nl then ['\n'] else []))
      = [p, c ++ (if nl then ['\n'] else [])] := by
    rw [List.append_assoc, List.cons_append, bytesSplit_append_sep ' ' p _ hp,
      bytesSplit_of_not_mem]
    cases nl <;> simp [hc]
  simp only [parseRelation, splitRelation, hsplit]
  cases nl
  · simp
  · simp only [if_true]
    rw [trimSpace_concat_space c '\n' (by decide)]

end Modv

namespace Modv

theorem not_mem_line (p c : Str) (hp : '\n' ∉ p) (hc : '\n' ∉ c) : '\n' ∉ p ++ ' ' :: c := by
  intro h
  rcases List.mem_append.1 h with h | h
  · exact hp h
  · rcases List.mem_cons.1 h with h | h
    · exact absurd h (by decide)
    · exact hc h

/-- The loop on the text of well-formed records runs the loop body on the trimmed
identifiers of each record in turn. -/
theorem parseLoop_encode (options : ParseOptions) (nl : Bool) :
    ∀ (recs : List (Str × Str)), (∀ r ∈ recs, IsIdent r.1 ∧ IsIdent r.2) →
    ∀ (st : LoopState),
      parseLoop options none st (readChunks (encodeRecords nl recs))
        = ((runRecords options st (trimRecords recs)).1,
            match (runRecords options st (trimRecords recs)).2 with
            | none => .ok none
            | some p => .error p)
  | [], _, st => by simp [encodeRecords, readChunks, parseLoop, trimRecords, runRecords]
  | [r], h, st => by
    obtain ⟨⟨hp0, hp1, hp2⟩, ⟨_, hc1, hc2⟩⟩ := h r (by simp)
    have hchunks : readChunks (encodeRecords nl [r])
        = [r.1 ++ ' ' :: r.2 ++ (if nl then ['\n'] else [])] := by
      simp only [encodeRecords]
      cases nl
      · simp only [Bool.false_eq_true, if_false, List.append_nil]
        exact readChunks_of_not_mem _ (by simp) (not_mem_line _ _ hp2 hc2)
      · simp only [if_true]
        rw [readChunks_line _ _ (not_mem_line _ _ hp2 hc2)]
        simp [readChunks]
    rw [hchunks]
    simp only [parseLoop, parseRelation_line options st r.1 r.2 hp1 hc1 nl, trimRecords,
      List.map_cons, List.map_nil, runRecords]
    rcases processRecord options st (trimSpace r.1) (trimSpace r.2) with ⟨st1, _ | p⟩ <;> rfl
  | r :: r' :: rest, h, st => by
    obtain ⟨⟨hp0, hp1, hp2⟩, ⟨_, hc1, hc2⟩⟩ := h r (by simp)
    have ih := parseLoop_encode options nl (r' :: rest)
      (fun x hx => h x (List.mem_cons_of_mem _ hx))
    have hline := parseRelation_line options st r.1 r.2 hp1 hc1 true
    simp only [if_true] at hline
    simp only [encodeRecords]
    rw [readChunks_line _ _ (not_mem_line _ _ hp2 hc2)]
    simp only [parseLoop, hline, trimRecords, List.map_cons, runRecords]
    rcases processRecord options st (trimSpace r.1) (trimSpace r.2) with ⟨st1, _ | p⟩
    · simp only
      have := ih st1
      simp only [trimRecords, List.map_cons] at this
      exact this
    · rfl

end Modv

namespace Modv

/-! ## Association lists -/

section Maps

variable {κ ν : Type} [DecidableEq κ]

theorem mapGet_eq_none_iff (m : List (κ × ν)) (k : κ) :
    mapGet m k = none ↔ k ∉ m.map Prod.fst := by
  induction m with
  | nil => simp [mapGet]
  | cons e m ih =>
    obtain ⟨k', v⟩ := e
    by_cases h : k' = k
    · simp [mapGet, h]
    · have h' : ¬ k = k' := fun e => h e.symm
      simp [mapGet, h, h', ih]

theorem mapGet_append_of_some (m e : List (κ × ν)) (k : κ) (v : ν) (h : mapGet m k = some v) :
    mapGet (m ++ e) k = some v := by
  induction m with
  | nil => simp [mapGet] at h
  | cons x m ih =>
    obtain ⟨k', v'⟩ := x
    by_cases hk : k' = k
    · simpa [mapGet, hk] using h
    · simp only [mapGet, hk, if_false, List.cons_append] at h ⊢
      exact ih h

theorem mapGet_append_of_none (m e : List (κ × ν)) (k : κ) (h : mapGet m k = none) :
    mapGet (m ++ e) k = mapGet e k := by
  induction m with
  | nil => rfl
  | cons x m ih =>
    obtain ⟨k', v'⟩ := x
    by_cases hk : k' = k
    · simp [mapGet, hk] at h
    · simp only [mapGet, hk, if_false, List.cons_append] at h ⊢
      exact ih h

theorem mapSet_of_none (m : List (κ × ν)) (k : κ) (v : ν) (h : mapGet m k = none) :
    mapSet m k v = m ++ [(k, v)] := by
  induction m with
  | nil => rfl
  | cons x m ih =>
    obtain ⟨k', v'⟩ := x
    by_cases hk : k' = k
    · simp [mapGet, hk] at h
    · simp only [mapGet, hk, if_false] at h
      simp [mapSet, hk, ih h]

theorem mapGet_mapSet_self (m : List (κ × ν)) (k : κ) (v : ν) :
    mapGet (mapSet m k v) k = some v := by
  induction m with
  | nil => simp [mapSet, mapGet]
  | cons x m ih =>
    obtain ⟨k', v'⟩ := x
    by_cases hk : k' = k
    · simp [mapSet, mapGet, hk]
    · simp [mapSet, mapGet, hk, ih]

theorem mapGet_mapSet_ne (m : List (κ × ν)) (k k1 : κ) (v : ν) (h : k ≠ k1) :
    mapGet (mapSet m k v) k1 = mapGet m k1 := by
  induction m with
  | nil => simp [mapSet, mapGet, h]
  | cons x m ih =>
    obtain ⟨k', v'⟩ := x
    by_cases hk : k' = k
    · subst hk
      simp [mapSet, mapGet, h]
    · by_cases hk1 : k' = k1
      · subst hk1
        rw [mapSet, if_neg hk, mapGet, if_pos rfl, mapGet, if_pos rfl]
      · rw [mapSet, if_neg hk, mapGet, if_neg hk1, mapGet, if_neg hk1, ih]

theorem mem_mapSet (m : List (κ × ν)) (k : κ) (v : ν) (e : κ × ν) (h : e ∈ mapSet m k v) :
    e = (k, v) ∨ e ∈ m := by
  induction m with
  | nil => simpa [mapSet] using h
  | cons x m ih =>
    obtain ⟨k', v'⟩ := x
    by_cases hk : k' = k
    · simp only [mapSet, hk, if_true, List.mem_cons] at h
      rcases h with h | h
      · exact Or.inl h
      · exact Or.inr (List.mem_cons_of_mem _ h)
    · simp only [mapSet, hk, if_false, List.mem_cons] at h
      rcases h with h | h
      · exact Or.inr (by simp [h])
      · rcases ih h with h | h
        · exact Or.inl h
        · exact Or.inr (List.mem_cons_of_mem _ h)

theorem mem_of_mapGet (m : List (κ × ν)) (k : κ) (v : ν) (h : mapGet m k = some v) :
    (k, v) ∈ m := by
  induction m with
  | nil => simp [mapGet] at h
  | cons x m ih =>
    obtain ⟨k', v'⟩ := x
    by_cases hk : k' = k
    · simp only [mapGet, hk, if_true, Option.some.injEq] at h
      simp [hk, h]
    · simp only [mapGet, hk, if_false] at h
      exact List.mem_cons_of_mem _ (ih h)

end Maps

theorem depsOf_mapSet (deps : List (Nat × List Nat)) (u u1 : Nat) (l : List Nat) :
    depsOf (mapSet deps u l) u1 = if u = u1 then l else depsOf deps u1 := by
  by_cases h : u = u1
  · subst h
    simp [depsOf, mapGet_mapSet_self]
  · simp [depsOf, mapGet_mapSet_ne _ _ _ _ h, h]

/-! ## First occurrences -/

section FirstSeen

variable {α κ : Type} [DecidableEq κ]

theorem firstSeen_concat (key : α → κ) (xs : List α) (x : α) :
    firstSeen key (xs ++ [x])
      = if key x ∈ xs.map key then firstSeen key xs else firstSeen key xs ++ [x] := by
  induction xs with
  | nil => simp [firstSeen]
  | cons a xs ih =>
    rw [List.cons_append, firstSeen, ih]
    by_cases h1 : key x ∈ xs.map key
    · rw [if_pos h1, if_pos (by simp [h1])]
      rfl
    · rw [if_neg h1]
      by_cases h2 : key x = key a
      · rw [if_pos (by simp [h2])]
        simp [firstSeen, List.filter_append, h2]
      · rw [if_neg (by simp [h1, h2])]
        simp [firstSeen, List.filter_append, h2]

theorem mem_firstSeen_map (key : α → κ) (xs : List α) (k : κ) :
    k ∈ (firstSeen key xs).map key ↔ k ∈ xs.map key := by
  induction xs using List.reverseRecOn with
  | nil => simp [firstSeen]
  | append_singleton xs x ih =>
    rw [firstSeen_concat]
    by_cases h : key x ∈ xs.map key
    · simp only [h, if_true, ih, List.map_append, List.map_cons, List.map_nil,
        List.mem_append, List.mem_singleton]
      constructor
      · exact Or.inl
      · rintro (h1 | h1)
        · exact h1
        · rw [h1]; exact h
    · simp only [h, if_false, List.map_append, List.mem_append, ih]

theorem mem_of_mem_firstSeen (key : α → κ) (xs : List α) (y : α) (h : y ∈ firstSeen key xs) :
    y ∈ xs := by
  induction xs using List.reverseRecOn with
  | nil => simp [firstSeen] at h
  | append_singleton xs x ih =>
    rw [firstSeen_concat] at h
    by_cases hk : key x ∈ xs.map key
    · simp only [hk, if_true] at h
      exact List.mem_append_left _ (ih h)
    · simp only [hk, if_false, List.mem_append, List.mem_singleton] at h
      rcases h with h | h
      · exact List.mem_append_left _ (ih h)
      · simp [h]

theorem nodup_firstSeen_map (key : α → κ) (xs : List α) : ((firstSeen key xs).map key).Nodup := by
  induction xs using List.reverseRecOn with
  | nil => simp [firstSeen]
  | append_singleton xs x ih =>
    rw [firstSeen_concat]
    by_cases hk : key x ∈ xs.map key
    · simpa [hk] using ih
    · simp only [hk, if_false, List.map_append, List.map_cons, List.map_nil]
      rw [List.nodup_append]
      refine ⟨ih, by simp, ?_⟩
      intro a ha hb
      rw [List.mem_singleton] at hb
      subst hb
      exact hk ((mem_firstSeen_map key xs _).1 ha)

end FirstSeen

end Modv

namespace Modv

/-! ## The expected module table -/

theorem expectedMods_keys (options : ParseOptions) (toks : List Str) :
    (expectedMods options toks).map Prod.fst
      = (firstSeen (moduleKey options) toks).map (moduleKey options) := by
  simp only [expectedMods, List.map_map]
  conv_rhs => rw [← List.enumFrom_map_snd 1 (firstSeen (moduleKey options) toks)]
  simp only [List.map_map]
  rfl

theorem expectedMods_length (options : ParseOptions) (toks : List Str) :
    (expectedMods options toks).length = (firstSeen (moduleKey options) toks).length := by
  simp [expectedMods]

theorem expectedMods_concat (options : ParseOptions) (toks : List Str) (x : Str) :
    expectedMods options (toks ++ [x])
      = if moduleKey options x ∈ toks.map (moduleKey options) then expectedMods options toks
        else expectedMods options toks
          ++ [(moduleKey options x, newModule ((expectedMods options toks).length + 1) x)] := by
  by_cases h : moduleKey options x ∈ toks.map (moduleKey options)
  · rw [if_pos h]
    simp only [expectedMods, firstSeen_concat, if_pos h]
  · rw [if_neg h, expectedMods_length]
    simp only [expectedMods, firstSeen_concat, if_neg h, List.enumFrom_append, List.map_append,
      List.enumFrom_cons, List.enumFrom_nil, List.map_cons, List.map_nil]
    rw [Nat.add_comm 1]

theorem mapGet_expectedMods_eq_none (options : ParseOptions) (toks : List Str) (k : Str) :
    mapGet (expectedMods options toks) k = none ↔ k ∉ toks.map (moduleKey options) := by
  rw [mapGet_eq_none_iff, expectedMods_keys, mem_firstSeen_map]

/-- With a sorted exclusion list the lookup does not panic and tests membership. -/
theorem resolveModule_of_sorted (options : ParseOptions)
    (hs : stringsAreSorted options.IgnoreModules = true) (st : LoopState) (k raw : Str) :
    resolveModule options st k raw
      = if k ∈ options.IgnoreModules then .ok (st, none)
        else
          match mapGet st.Mods k with
          | some md => .ok (st, some md)
          | none =>
            .ok ({ st with
                    Mods := mapSet st.Mods k (newModule st.serialID raw),
                    serialID := st.serialID + 1 }, some (newModule st.serialID raw)) := by
  unfold resolveModule
  rw [isStringInSortedArray_of_sorted _ _ hs]
  by_cases hex : k ∈ options.IgnoreModules
  · simp [hex]
  · simp only [hex, decide_False, if_false]
    rfl

/-- The effect of looking up or creating one module when the exclusion list is sorted and
the table is the expected one for the identifiers `toks` seen so far. -/
theorem resolveModule_spec (options : ParseOptions)
    (hs : stringsAreSorted options.IgnoreModules = true) (st : LoopState) (toks : List Str)
    (raw : Str) (hM : st.Mods = expectedMods options toks)
    (hS : st.serialID = st.Mods.length + 1) :
    ∃ st1 omd, resolveModule options st (moduleKey options raw) raw = .ok (st1, omd) ∧
      st1.Dependencies = st.Dependencies ∧ st1.topModule = st.topModule ∧
      st1.Mods = expectedMods options
        (toks ++ if moduleKey options raw ∈ options.IgnoreModules then [] else [raw]) ∧
      st1.serialID = st1.Mods.length + 1 ∧
      (moduleKey options raw ∈ options.IgnoreModules → omd = none) ∧
      (moduleKey options raw ∉ options.IgnoreModules →
        ∃ md, omd = some md ∧ mapGet st1.Mods (moduleKey options raw) = some md) ∧
      (∀ k v, mapGet st.Mods k = some v → mapGet st1.Mods k = some v) := by
  rw [resolveModule_of_sorted options hs]
  by_cases hex : moduleKey options raw ∈ options.IgnoreModules
  · rw [if_pos hex, if_pos hex, List.append_nil]
    exact ⟨st, none, rfl, rfl, rfl, hM, hS, fun _ => rfl, fun h => absurd hex h, fun _ _ h => h⟩
  · rw [if_neg hex, if_neg hex]
    cases hg : mapGet st.Mods (moduleKey options raw) with
    | some md =>
      have hin : moduleKey options raw ∈ toks.map (moduleKey options) := by
        by_contra hn
        rw [hM, (mapGet_expectedMods_eq_none options toks _).2 hn] at hg
        exact Option.noConfusion hg
      refine ⟨st, some md, rfl, rfl, rfl, ?_, hS, fun h => absurd h hex,
        fun _ => ⟨md, rfl, hg⟩, fun _ _ h => h⟩
      rw [expectedMods_concat, if_pos hin, hM]
    | none =>
      have hnin : moduleKey options raw ∉ toks.map (moduleKey options) := by
        rw [hM] at hg
        exact (mapGet_expectedMods_eq_none options toks _).1 hg
      have hset : mapSet st.Mods (moduleKey options raw) (newModule st.serialID raw)
          = st.Mods ++ [(moduleKey options raw, newModule st.serialID raw)] :=
        mapSet_of_none _ _ _ hg
      refine ⟨_, _, rfl, rfl, rfl, ?_, ?_, fun h => absurd h hex, fun _ => ⟨_, rfl, ?_⟩, ?_⟩
      · show mapSet st.Mods (moduleKey options raw) (newModule st.serialID raw) = _
        rw [hset, expectedMods_concat, if_neg hnin, hS, hM]
      · show st.serialID + 1
          = (mapSet st.Mods (moduleKey options raw) (newModule st.serialID raw)).length + 1
        rw [hset, hS]
        simp
      · exact mapGet_mapSet_self _ _ _
      · intro k v hk
        show mapGet (mapSet st.Mods (moduleKey options raw) (newModule st.serialID raw)) k = _
        rw [hset]
        exact mapGet_append_of_some _ _ _ _ hk

end Modv

namespace Modv

/-! ## Tokens, edges and targets of a list of records -/

theorem includedTokens_concat (options : ParseOptions) (done : List (Str × Str)) (r : Str × Str) :
    includedTokens options (done ++ [r])
      = (includedTokens options done
          ++ if moduleKey options r.1 ∈ options.IgnoreModules then [] else [r.1])
          ++ if moduleKey options r.2 ∈ options.IgnoreModules then [] else [r.2] := by
  simp only [includedTokens, List.flatMap_append, List.flatMap_cons, List.flatMap_nil,
    List.append_nil, List.filter_append, List.append_assoc]
  congr 1
  by_cases h1 : moduleKey options r.1 ∈ options.IgnoreModules <;>
    by_cases h2 : moduleKey options r.2 ∈ options.IgnoreModules <;>
    simp [List.filter_cons, h1, h2]

theorem mem_includedTokens (options : ParseOptions) (done : List (Str × Str)) (r : Str × Str)
    (hr : r ∈ done) :
    (moduleKey options r.1 ∉ options.IgnoreModules → r.1 ∈ includedTokens options done) ∧
    (moduleKey options r.2 ∉ options.IgnoreModules → r.2 ∈ includedTokens options done) := by
  constructor
  · intro h
    simp only [includedTokens, List.mem_filter, List.mem_flatMap, decide_eq_true_eq]
    exact ⟨⟨r, hr, by simp⟩, h⟩
  · intro h
    simp only [includedTokens, List.mem_filter, List.mem_flatMap, decide_eq_true_eq]
    exact ⟨⟨r, hr, by simp⟩, h⟩

theorem not_excluded_of_mem_includedTokens (options : ParseOptions) (recs : List (Str × Str))
    (t : Str) (h : t ∈ includedTokens options recs) :
    moduleKey options t ∉ options.IgnoreModules := by
  simp only [includedTokens, List.mem_filter, decide_eq_true_eq] at h
  exact h.2

/-- Every included identifier has a module in the expected table. -/
theorem mapGet_expectedMods_of_mem (options : ParseOptions) (toks : List Str) (t : Str)
    (h : t ∈ toks) : ∃ md, mapGet (expectedMods options toks) (moduleKey options t) = some md := by
  cases hg : mapGet (expectedMods options toks) (moduleKey options t) with
  | some md => exact ⟨md, rfl⟩
  | none =>
    exact absurd (List.mem_map_of_mem _ h) ((mapGet_expectedMods_eq_none options toks _).1 hg)

theorem edgeOf_stable (options : ParseOptions) (m m1 : List (Str × Module)) (r : Str × Str)
    (hext : ∀ k v, mapGet m k = some v → mapGet m1 k = some v)
    (hp : moduleKey options r.1 ∉ options.IgnoreModules →
      ∃ md, mapGet m (moduleKey options r.1) = some md)
    (hc : moduleKey options r.2 ∉ options.IgnoreModules →
      ∃ md, mapGet m (moduleKey options r.2) = some md) :
    edgeOf options m1 r = edgeOf options m r := by
  unfold edgeOf
  by_cases hex : moduleKey options r.1 ∈ options.IgnoreModules
      ∨ moduleKey options r.2 ∈ options.IgnoreModules
  · rw [if_pos hex, if_pos hex]
  · rw [if_neg hex, if_neg hex]
    obtain ⟨a, ha⟩ := hp (fun h => hex (Or.inl h))
    obtain ⟨b, hb⟩ := hc (fun h => hex (Or.inr h))
    simp only [moduleID, ha, hb, hext _ _ ha, hext _ _ hb]

theorem targetsOf_stable (options : ParseOptions) (m m1 : List (Str × Module))
    (done : List (Str × Str)) (u : Nat)
    (hext : ∀ k v, mapGet m k = some v → mapGet m1 k = some v)
    (hm : m = expectedMods options (includedTokens options done)) :
    targetsOf options m1 done u = targetsOf options m done u := by
  unfold targetsOf
  congr 2
  apply List.filterMap_congr
  intro r hr
  apply edgeOf_stable options m m1 r hext
  · intro h
    rw [hm]
    exact mapGet_expectedMods_of_mem options _ _ ((mem_includedTokens options done r hr).1 h)
  · intro h
    rw [hm]
    exact mapGet_expectedMods_of_mem options _ _ ((mem_includedTokens options done r hr).2 h)

theorem targetsOf_concat (options : ParseOptions) (m : List (Str × Module))
    (done : List (Str × Str)) (r : Str × Str) (u : Nat) :
    targetsOf options m (done ++ [r]) u
      = targetsOf options m done u
        ++ match edgeOf options m r with
           | some e => if e.1 = u then [e.2] else []
           | none => [] := by
  unfold targetsOf
  rw [List.filterMap_append, List.filter_append, List.map_append]
  congr 1
  cases he : edgeOf options m r with
  | none => simp [List.filterMap_cons, he]
  | some e =>
    by_cases h : e.1 = u
    · simp [List.filterMap_cons, he, h]
    · simp [List.filterMap_cons, he, h]

theorem mem_firstSeen_id (xs : List Nat) (v : Nat) : v ∈ firstSeen id xs ↔ v ∈ xs := by
  have := mem_firstSeen_map (id : Nat → Nat) xs v
  simpa using this

/-- Recording an edge keeps every adjacency list the list of first occurrences. -/
theorem addDependency_depsOf (st : LoopState) (md depmd : Module) (T : Nat → List Nat)
    (hT : ∀ u, depsOf st.Dependencies u = firstSeen id (T u)) (u : Nat) :
    depsOf (addDependency st (some md) (some depmd)).Dependencies u
      = firstSeen id (T u ++ if md.ID = u then [depmd.ID] else []) := by
  have hhas : hasDependency st.Dependencies md.ID depmd.ID = true ↔ depmd.ID ∈ T md.ID := by
    unfold hasDependency
    rw [hT, List.any_eq_true]
    constructor
    · rintro ⟨x, hx, hxe⟩
      have : x = depmd.ID := by simpa using hxe
      rw [← this]
      exact (mem_firstSeen_id _ _).1 hx
    · intro h
      exact ⟨depmd.ID, (mem_firstSeen_id _ _).2 h, by simp⟩
  by_cases hu : md.ID = u
  · rw [if_pos hu, firstSeen_concat]
    simp only [List.map_id, id]
    subst hu
    by_cases hin : depmd.ID ∈ T md.ID
    · rw [if_pos hin]
      have h1 : hasDependency st.Dependencies md.ID depmd.ID = true := hhas.2 hin
      simp only [addDependency, h1, Bool.not_true, Bool.false_eq_true, if_false]
      exact hT _
    · rw [if_neg hin]
      have h1 : hasDependency st.Dependencies md.ID depmd.ID = false := by
        cases h : hasDependency st.Dependencies md.ID depmd.ID with
        | false => rfl
        | true => exact absurd (hhas.1 h) hin
      simp only [addDependency, h1, Bool.not_false, if_true]
      rw [depsOf_mapSet, if_pos rfl, hT]
  · rw [if_neg hu, List.append_nil]
    by_cases h1 : hasDependency st.Dependencies md.ID depmd.ID = true
    · simp only [addDependency, h1, Bool.not_true, Bool.false_eq_true, if_false]
      exact hT _
    · have h1 : hasDependency st.Dependencies md.ID depmd.ID = false := by
        simpa using h1
      simp only [addDependency, h1, Bool.not_false, if_true]
      rw [depsOf_mapSet, if_neg hu, hT]

end Modv

namespace Modv

theorem mem_depsOf (deps : List (Nat × List Nat)) (u v : Nat) (h : v ∈ depsOf deps u) :
    ∃ l, (u, l) ∈ deps ∧ v ∈ l := by
  unfold depsOf at h
  cases hg : mapGet deps u with
  | none => simp [hg] at h
  | some l =>
    rw [hg] at h
    exact ⟨l, mem_of_mapGet _ _ _ hg, h⟩

/-- Recording an edge between two identifiers with property `P` keeps the adjacency table
within `P`. -/
theorem addDependency_entries (P : Nat → Prop) (st : LoopState) (omd odep : Option Module)
    (hE : ∀ e ∈ st.Dependencies, P e.1 ∧ ∀ v ∈ e.2, P v)
    (hmd : ∀ md, omd = some md → P md.ID) (hdep : ∀ md, odep = some md → P md.ID) :
    ∀ e ∈ (addDependency st omd odep).Dependencies, P e.1 ∧ ∀ v ∈ e.2, P v := by
  cases omd with
  | none => exact hE
  | some md =>
    cases odep with
    | none => exact hE
    | some depmd =>
      unfold addDependency
      by_cases h1 : hasDependency st.Dependencies md.ID depmd.ID = true
      · simp only [h1, Bool.not_true, Bool.false_eq_true, if_false]
        exact hE
      · have h1 : hasDependency st.Dependencies md.ID depmd.ID = false := by simpa using h1
        simp only [h1, Bool.not_false, if_true]
        intro e he
        rcases mem_mapSet _ _ _ _ he with h | h
        · subst h
          refine ⟨hmd md rfl, ?_⟩
          intro v hv
          rcases List.mem_append.1 hv with hv | hv
          · obtain ⟨l, hl, hvl⟩ := mem_depsOf _ _ _ hv
            exact (hE _ hl).2 v hvl
          · rw [List.mem_singleton] at hv
            rw [hv]
            exact hdep depmd rfl
        · exact hE e h

theorem addDependency_fields (st : LoopState) (omd odep : Option Module) :
    (addDependency st omd odep).Mods = st.Mods ∧
    (addDependency st omd odep).serialID = st.serialID ∧
    (addDependency st omd odep).topModule = st.topModule := by
  cases omd with
  | none => exact ⟨rfl, rfl, rfl⟩
  | some md =>
    cases odep with
    | none => exact ⟨rfl, rfl, rfl⟩
    | some depmd =>
      cases h : hasDependency st.Dependencies md.ID depmd.ID <;> simp [addDependency, h]

/-- The loop body on a record that is skipped only sets `topModule`. -/
theorem processRecord_skipped (options : ParseOptions) (st : LoopState) (p c : Str)
    (hskip : (options.IgnoreIndirect
      && decide ((if st.topModule = [] then moduleKey options p else st.topModule)
          ≠ moduleKey options p)) = true) :
    processRecord options st p c
      = ({ st with topModule := if st.topModule = [] then moduleKey options p else st.topModule },
          none) := by
  unfold processRecord
  simp only [moduleKey] at hskip
  simp only [hskip, if_true]
  rfl

/-- The loop body on a record that is not skipped, for a sorted exclusion list: no panic,
and the invariant extends to the record. -/
theorem processRecord_kept (options : ParseOptions)
    (hs : stringsAreSorted options.IgnoreModules = true) (done : List (Str × Str))
    (st : LoopState) (p c : Str) (hR : Represents options done st)
    (hkeep : (options.IgnoreIndirect
      && decide ((if st.topModule = [] then moduleKey options p else st.topModule)
          ≠ moduleKey options p)) = false) :
    ∃ st1, processRecord options st p c = (st1, none) ∧
      st1.topModule = (if st.topModule = [] then moduleKey options p else st.topModule) ∧
      Represents options (done ++ [(p, c)]) st1 := by
  obtain ⟨hM, hS, hD, hE⟩ := hR
  obtain ⟨st1, omd, h1, hd1, ht1, hm1, hs1, hn1, hsome1, hext1⟩ :=
    resolveModule_spec options hs
      { st with topModule := if st.topModule = [] then moduleKey options p else st.topModule }
      (includedTokens options done) p hM hS
  obtain ⟨st2, odep, h2, hd2, ht2, hm2, hs2, hn2, hsome2, hext2⟩ :=
    resolveModule_spec options hs st1 _ c hm1 hs1
  have hext : ∀ k v, mapGet st.Mods k = some v → mapGet st2.Mods k = some v :=
    fun k v h => hext2 k v (hext1 k v h)
  obtain ⟨hfm, hfs, hft⟩ := addDependency_fields st2 omd odep
  have hproc : processRecord options st p c = (addDependency st2 omd odep, none) := by
    unfold processRecord
    simp only [moduleKey] at hkeep h1 h2
    simp only [hkeep, Bool.false_eq_true, if_false, h1, h2]
  refine ⟨_, hproc, ?_, ?_, ?_, ?_, ?_⟩
  · rw [hft, ht2, ht1]
  · rw [hfm, hm2, includedTokens_concat]
  · rw [hfs, hfm]
    exact hs2
  · intro u
    rw [hfm, targetsOf_concat, targetsOf_stable options st.Mods st2.Mods done u hext hM]
    by_cases hex : moduleKey options p ∈ options.IgnoreModules
        ∨ moduleKey options c ∈ options.IgnoreModules
    · have hedge : edgeOf options st2.Mods (p, c) = none := by
        unfold edgeOf
        rw [if_pos hex]
      have hsame : (addDependency st2 omd odep).Dependencies = st.Dependencies := by
        rcases hex with h | h
        · rw [hn1 h]
          exact (hd2.trans hd1)
        · rw [hn2 h]
          cases omd <;> exact (hd2.trans hd1)
      rw [hedge, hsame, List.append_nil]
      exact hD u
    · have hp : moduleKey options p ∉ options.IgnoreModules := fun h => hex (Or.inl h)
      have hc : moduleKey options c ∉ options.IgnoreModules := fun h => hex (Or.inr h)
      obtain ⟨md, hmd, hgmd⟩ := hsome1 hp
      obtain ⟨depmd, hdep, hgdep⟩ := hsome2 hc
      have hedge : edgeOf options st2.Mods (p, c) = some (md.ID, depmd.ID) := by
        unfold edgeOf
        rw [if_neg hex]
        simp only [moduleID, hext2 _ _ hgmd, hgdep, Option.map_some']
      rw [hedge, hmd, hdep]
      apply addDependency_depsOf
      intro u1
      rw [hd2, hd1]
      exact hD u1
  · apply addDependency_entries
      (fun i => ∃ k md, mapGet (addDependency st2 omd odep).Mods k = some md ∧ md.ID = i)
    · intro e he
      rw [hd2, hd1] at he
      obtain ⟨⟨k, md, hk, hid⟩, hv⟩ := hE e he
      rw [hfm]
      refine ⟨⟨k, md, hext k md hk, hid⟩, ?_⟩
      intro v hvm
      obtain ⟨k1, md1, hk1, hid1⟩ := hv v hvm
      exact ⟨k1, md1, hext k1 md1 hk1, hid1⟩
    · intro md hmd
      rw [hfm]
      by_cases hp : moduleKey options p ∈ options.IgnoreModules
      · rw [hn1 hp] at hmd
        exact Option.noConfusion hmd
      · obtain ⟨md1, hmd1, hgmd⟩ := hsome1 hp
        rw [hmd1] at hmd
        have e : md1 = md := Option.some.inj hmd
        exact ⟨_, md1, hext2 _ _ hgmd, by rw [e]⟩
    · intro md hmd
      rw [hfm]
      by_cases hc : moduleKey options c ∈ options.IgnoreModules
      · rw [hn2 hc] at hmd
        exact Option.noConfusion hmd
      · obtain ⟨md1, hmd1, hgmd⟩ := hsome2 hc
        rw [hmd1] at hmd
        have e : md1 = md := Option.some.inj hmd
        exact ⟨_, md1, hgmd, by rw [e]⟩

end Modv

namespace Modv

/-! ## The whole loop -/

theorem represents_of_fields (options : ParseOptions) (done : List (Str × Str))
    (st st1 : LoopState) (hM : st1.Mods = st.Mods) (hS : st1.serialID = st.serialID)
    (hD : st1.Dependencies = st.Dependencies) (hR : Represents options done st) :
    Represents options done st1 := by
  unfold Represents at hR ⊢
  rw [hM, hS, hD]
  exact hR

/-- For a sorted exclusion list the loop body never panics, and the final state is the one
expected for the records that are not skipped. -/
theorem runRecords_spec (options : ParseOptions)
    (hs : stringsAreSorted options.IgnoreModules = true) :
    ∀ (recs done : List (Str × Str)) (st : LoopState), Represents options done st →
      ∃ st1, runRecords options st recs = (st1, none) ∧
        Represents options (done ++ keptRecords options st.topModule recs) st1
  | [], done, st, hR => ⟨st, rfl, by simpa [keptRecords] using hR⟩
  | r :: rest, done, st, hR => by
    cases hskip : (options.IgnoreIndirect
      && decide ((if st.topModule = [] then moduleKey options r.1 else st.topModule)
          ≠ moduleKey options r.1)) with
    | true =>
      have hproc := processRecord_skipped options st r.1 r.2 hskip
      obtain ⟨st1, hrun, hrep⟩ := runRecords_spec options hs rest done
        { st with topModule := if st.topModule = [] then moduleKey options r.1 else st.topModule }
        (represents_of_fields options done st _ rfl rfl rfl hR)
      refine ⟨st1, ?_, ?_⟩
      · simp only [runRecords, hproc]
        exact hrun
      · simp only [keptRecords, hskip, if_true]
        exact hrep
    | false =>
      obtain ⟨st0, hproc, htop, hrep0⟩ := processRecord_kept options hs done st r.1 r.2 hR hskip
      obtain ⟨st1, hrun, hrep⟩ := runRecords_spec options hs rest (done ++ [r]) st0 hrep0
      refine ⟨st1, ?_, ?_⟩
      · simp only [runRecords, hproc]
        exact hrun
      · simp only [keptRecords, hskip, Bool.false_eq_true, if_false]
        rw [htop, List.append_assoc] at hrep
        exact hrep

theorem represents_init (options : ParseOptions) :
    Represents options []
      { topModule := [], serialID := 1, Mods := [], Dependencies := [] } := by
  refine ⟨rfl, rfl, ?_, ?_⟩
  · intro u
    rfl
  · intro e he
    exact absurd he (List.not_mem_nil e)

/-- `Parse` on the text of well-formed records with a sorted exclusion list returns nil,
and its graph is the one expected for the records that are not skipped. -/
theorem Parse_wellFormed (options : ParseOptions)
    (hs : stringsAreSorted options.IgnoreModules = true) (nl : Bool)
    (recs : List (Str × Str)) (hid : ∀ r ∈ recs, IsIdent r.1 ∧ IsIdent r.2) :
    ∃ st, Parse (NewModuleGraph (bytesReader (encodeRecords nl recs))) options
        = .returned none
            { Reader := bytesReader (encodeRecords nl recs), Mods := st.Mods,
              Dependencies := st.Dependencies } ∧
      Represents options (keptRecords options [] (trimRecords recs)) st := by
  obtain ⟨st, hrun, hrep⟩ := runRecords_spec options hs (trimRecords recs) []
    { topModule := [], serialID := 1, Mods := [], Dependencies := [] } (represents_init options)
  refine ⟨st, ?_, by simpa using hrep⟩
  have hloop := parseLoop_encode options nl recs hid
    { topModule := [], serialID := 1, Mods := [], Dependencies := [] }
  rw [hrun] at hloop
  simp only [Parse, NewModuleGraph, bytesReader, Reader.chunks]
  rw [hloop]

end Modv

namespace Modv

/-! ## Claims about `Parse` -/

/-- C9 (clean termination): for every input made of lines `parent child` of non-empty
identifiers without spaces (the empty input included, with or without a line break after
the last line) and every sorted exclusion list, `Parse` returns nil: neither the index
access `relation[1]` nor the sortedness check of the exclusion lookup panics. -/
theorem Parse_returns_nil (options : ParseOptions) (nl : Bool) (recs : List (Str × Str))
    (hs : stringsAreSorted options.IgnoreModules = true)
    (hid : ∀ r ∈ recs, IsIdent r.1 ∧ IsIdent r.2) :
    ∃ g, Parse (NewModuleGraph (bytesReader (encodeRecords nl recs))) options
      = .returned none g := by
  obtain ⟨st, hparse, _⟩ := Parse_wellFormed options hs nl recs hid
  exact ⟨_, hparse⟩

theorem Parse_returns_nil_witness :
    ∃ g, Parse (NewModuleGraph (bytesReader
        (encodeRecords false [("a/b@v1".toList, "c".toList), ("c".toList, "d@v2".toList)])))
        { IgnoreVersion := true, IgnoreModules := ["c".toList, "x".toList],
          IgnoreIndirect := false }
      = .returned none g :=
  Parse_returns_nil _ false _ (by decide) (by simp [IsIdent])

/-- C8 (malformed record): on the input `"onlyonetoken\n"` the code does not return an
error: the index expression `relation[1]` panics (index 1 out of range for length 1), with
no module and no edge; and a line with a space but fewer than two tokens, as `"a \n"`, is
accepted, with the empty string as child. -/
theorem Parse_onlyonetoken_panics :
    (∀ options, Parse (NewModuleGraph (textReader "onlyonetoken\n")) options
      = .panicked (.indexOutOfRange 1 1) (NewModuleGraph (textReader "onlyonetoken\n"))) ∧
    Parse (NewModuleGraph (textReader "a \n")) defaultOptions
      = .returned none
          { Reader := textReader "a \n",
            Mods := [("a".toList, ⟨1, [], "a".toList, []⟩), ([], ⟨2, [], [], []⟩)],
            Dependencies := [(1, [2])] } := by
  constructor
  · intro options
    rfl
  · decide

/-- C7 (root key): with version folding and indirect suppression on, the first record of
`"@1 x\nb c\n"` has the empty parent key, so `topModule` stays empty and the second record
sets it: the record `b c`, whose parent key is not the parent key of the first record, is
processed and creates two modules and an edge. -/
theorem Parse_empty_root_key :
    Parse (NewModuleGraph (textReader "@1 x\nb c\n"))
        { IgnoreVersion := true, IgnoreModules := [], IgnoreIndirect := true }
      = .returned none
          { Reader := textReader "@1 x\nb c\n",
            Mods := [([], ⟨1, [], [], "1".toList⟩), ("x".toList, ⟨2, [], "x".toList, []⟩),
              ("b".toList, ⟨3, [], "b".toList, []⟩), ("c".toList, ⟨4, [], "c".toList, []⟩)],
            Dependencies := [(1, [2]), (3, [4])] } := by
  decide

end Modv

namespace Modv

theorem keptRecords_of_not_indirect (options : ParseOptions)
    (h : options.IgnoreIndirect = false) :
    ∀ (top : Str) (recs : List (Str × Str)), keptRecords options top recs = recs
  | _, [] => rfl
  | top, r :: rest => by
    simp only [keptRecords, h, Bool.false_and, Bool.false_eq_true, if_false]
    rw [keptRecords_of_not_indirect options h]

theorem includedTokens_of_nil (options : ParseOptions) (h : options.IgnoreModules = [])
    (recs : List (Str × Str)) :
    includedTokens options recs = recs.flatMap (fun r => [r.1, r.2]) := by
  simp [includedTokens, h]

theorem firstSeen_length_eq_dedup (options : ParseOptions) (toks : List Str) :
    (firstSeen (moduleKey options) toks).length
      = ((toks.map (moduleKey options)).dedup).length := by
  have hperm : ((firstSeen (moduleKey options) toks).map (moduleKey options)).Perm
      ((toks.map (moduleKey options)).dedup) := by
    apply (List.perm_ext_iff_of_nodup (nodup_firstSeen_map _ _) (List.nodup_dedup _)).2
    intro k
    rw [mem_firstSeen_map, List.mem_dedup]
  have := hperm.length_eq
  simpa using this

/-- C1: for every input whose lines are well-formed, with no excluded modules and indirect
suppression off, `Parse` returns nil and the keys of the module table are exactly the
module keys of the parent and child tokens, the key of a token being the trimmed token
when `IgnoreVersion` is false and `stripModuleVersion` of it when it is true; the keys are
pairwise distinct and the number of modules is the number of distinct keys. -/
theorem Parse_contains_all_modules (options : ParseOptions) (nl : Bool)
    (recs : List (Str × Str)) (hid : ∀ r ∈ recs, IsIdent r.1 ∧ IsIdent r.2)
    (hex : options.IgnoreModules = []) (hind : options.IgnoreIndirect = false) :
    ∃ g, Parse (NewModuleGraph (bytesReader (encodeRecords nl recs))) options
        = .returned none g ∧
      (∀ k, k ∈ g.Mods.map Prod.fst ↔
        k ∈ (recs.flatMap (fun r => [r.1, r.2])).map
          (fun t => if options.IgnoreVersion then stripModuleVersion (trimSpace t)
            else trimSpace t)) ∧
      (g.Mods.map Prod.fst).Nodup ∧
      g.Mods.length
        = (((recs.flatMap (fun r => [r.1, r.2])).map
            (fun t => if options.IgnoreVersion then stripModuleVersion (trimSpace t)
              else trimSpace t)).dedup).length := by
  have hs : stringsAreSorted options.IgnoreModules = true := by rw [hex]; rfl
  obtain ⟨st, hparse, hM, _⟩ := Parse_wellFormed options hs nl recs hid
  rw [keptRecords_of_not_indirect options hind, includedTokens_of_nil options hex] at hM
  have htoks : ((trimRecords recs).flatMap (fun r => [r.1, r.2])).map (moduleKey options)
      = (recs.flatMap (fun r => [r.1, r.2])).map
          (fun t => if options.IgnoreVersion then stripModuleVersion (trimSpace t)
            else trimSpace t) := by
    simp only [trimRecords, List.map_flatMap, List.flatMap_map, List.map_cons, List.map_nil,
      moduleKey]
  refine ⟨_, hparse, ?_, ?_, ?_⟩
  · intro k
    show k ∈ st.Mods.map Prod.fst ↔ _
    rw [hM, expectedMods_keys, mem_firstSeen_map, htoks]
  · show (st.Mods.map Prod.fst).Nodup
    rw [hM, expectedMods_keys]
    exact nodup_firstSeen_map _ _
  · show st.Mods.length = _
    rw [hM, expectedMods_length, firstSeen_length_eq_dedup, htoks]

theorem Parse_contains_all_modules_witness :
    ∃ g, Parse (NewModuleGraph (bytesReader
          (encodeRecords true [("m".toList, "t@1".toList), ("t@1".toList, "t@2".toList)])))
          { IgnoreVersion := true, IgnoreModules := [], IgnoreIndirect := false }
        = .returned none g ∧
      (∀ k, k ∈ g.Mods.map Prod.fst ↔
        k ∈ ([("m".toList, "t@1".toList), ("t@1".toList, "t@2".toList)].flatMap
              (fun r => [r.1, r.2])).map
          (fun t => if true then stripModuleVersion (trimSpace t) else trimSpace t)) ∧
      (g.Mods.map Prod.fst).Nodup ∧
      g.Mods.length
        = ((([("m".toList, "t@1".toList), ("t@1".toList, "t@2".toList)].flatMap
              (fun r => [r.1, r.2])).map
            (fun t => if true then stripModuleVersion (trimSpace t) else trimSpace t)).dedup).length :=
  Parse_contains_all_modules
    { IgnoreVersion := true, IgnoreModules := [], IgnoreIndirect := false } true
    [("m".toList, "t@1".toList), ("t@1".toList, "t@2".toList)] (by simp [IsIdent]) rfl rfl

end Modv

namespace Modv

theorem firstSeen_map {α κ : Type} [DecidableEq κ] (key : α → κ) (xs : List α) :
    firstSeen id (xs.map key) = (firstSeen key xs).map key := by
  induction xs using List.reverseRecOn with
  | nil => rfl
  | append_singleton xs x ih =>
    rw [List.map_append, List.map_cons, List.map_nil, firstSeen_concat, firstSeen_concat, ih]
    simp only [List.map_id, id]
    by_cases h : key x ∈ xs.map key
    · rw [if_pos h, if_pos h]
    · rw [if_neg h, if_neg h, List.map_append, List.map_cons, List.map_nil]

theorem mapGet_map_of_nodup {β κ ν : Type} [DecidableEq κ] (f : β → κ) (g : β → ν) :
    ∀ (l : List β), (l.map f).Nodup → ∀ x ∈ l,
      mapGet (l.map (fun b => (f b, g b))) (f x) = some (g x)
  | [], _, x, hx => absurd hx (List.not_mem_nil x)
  | b :: l, hnd, x, hx => by
    rw [List.map_cons, List.nodup_cons] at hnd
    rw [List.map_cons, mapGet]
    rcases List.mem_cons.1 hx with e | hxl
    · rw [e, if_pos rfl]
    · have hne : f b ≠ f x := by
        intro e
        exact hnd.1 (e ▸ List.mem_map_of_mem f hxl)
      rw [if_neg hne]
      exact mapGet_map_of_nodup f g l hnd.2 x hxl

/-- The module stored under the `i`-th first-seen identifier has identifier `i + 1` and is
built from that identifier. -/
theorem mapGet_expectedMods_getElem (options : ParseOptions) (toks : List Str) (i : Nat)
    (t : Str) (h : (firstSeen (moduleKey options) toks)[i]? = some t) :
    mapGet (expectedMods options toks) (moduleKey options t) = some (newModule (i + 1) t) := by
  have hmem : (1 + i, t) ∈ (firstSeen (moduleKey options) toks).enumFrom 1 := by
    apply List.getElem?_mem (n := i)
    rw [List.getElem?_enumFrom, h]
    rfl
  have hnd : (((firstSeen (moduleKey options) toks).enumFrom 1).map
      (fun e => moduleKey options e.2)).Nodup := by
    have := nodup_firstSeen_map (moduleKey options) toks
    rw [← List.enumFrom_map_snd 1 (firstSeen (moduleKey options) toks), List.map_map] at this
    exact this
  have := mapGet_map_of_nodup (fun e : Nat × Str => moduleKey options e.2)
    (fun e => newModule e.1 e.2) _ hnd _ hmem
  rw [Nat.add_comm 1 i] at this
  exact this

/-- C2: module identifiers are assigned in first-seen order starting at 1.  For every
well-formed input and every sorted exclusion list `Parse` returns nil, and when the
distinct non-excluded module keys of the processed records are listed in order of first
occurrence (parent before child, lines in order), the module stored under the `i`-th key
(counting from 0) has `ID = i + 1`; the table has exactly these keys, and its identifiers
are exactly `1, ..., n` for `n` modules. -/
theorem Parse_ids_first_seen (options : ParseOptions) (nl : Bool) (recs : List (Str × Str))
    (hs : stringsAreSorted options.IgnoreModules = true)
    (hid : ∀ r ∈ recs, IsIdent r.1 ∧ IsIdent r.2) :
    ∃ g, Parse (NewModuleGraph (bytesReader (encodeRecords nl recs))) options
        = .returned none g ∧
      (∀ i k, (firstSeen id ((includedTokens options
            (keptRecords options [] (trimRecords recs))).map (moduleKey options)))[i]? = some k →
          ∃ md, mapGet g.Mods k = some md ∧ md.ID = i + 1) ∧
      (∀ k, k ∈ g.Mods.map Prod.fst ↔
        k ∈ firstSeen id ((includedTokens options
            (keptRecords options [] (trimRecords recs))).map (moduleKey options))) ∧
      g.Mods.map (fun e => e.2.ID) = List.range' 1 g.Mods.length ∧
      g.Mods.length = (firstSeen id ((includedTokens options
            (keptRecords options [] (trimRecords recs))).map (moduleKey options))).length := by
  obtain ⟨st, hparse, hM, _⟩ := Parse_wellFormed options hs nl recs hid
  refine ⟨_, hparse, ?_, ?_, ?_, ?_⟩
  · intro i k hk
    show ∃ md, mapGet st.Mods k = some md ∧ md.ID = i + 1
    rw [firstSeen_map, List.getElem?_map] at hk
    cases ht : (firstSeen (moduleKey options)
        (includedTokens options (keptRecords options [] (trimRecords recs))))[i]? with
    | none => rw [ht] at hk; exact Option.noConfusion hk
    | some t =>
      rw [ht] at hk
      have hkt : moduleKey options t = k := Option.some.inj hk
      refine ⟨newModule (i + 1) t, ?_, rfl⟩
      rw [hM, ← hkt]
      exact mapGet_expectedMods_getElem options _ i t ht
  · intro k
    show k ∈ st.Mods.map Prod.fst ↔ _
    rw [hM, expectedMods_keys, firstSeen_map]
  · show st.Mods.map (fun e => e.2.ID) = List.range' 1 st.Mods.length
    rw [hM, expectedMods_length]
    simp only [expectedMods, List.map_map]
    rw [← List.enumFrom_map_fst 1]
    rfl
  · show st.Mods.length = _
    rw [hM, expectedMods_length, firstSeen_map, List.length_map]

end Modv

namespace Modv

/-! ## The dedup invariant -/

theorem resolveModule_deps (options : ParseOptions) (st st1 : LoopState) (k raw : Str)
    (o : Option Module) (h : resolveModule options st k raw = .ok (st1, o)) :
    st1.Dependencies = st.Dependencies := by
  unfold resolveModule at h
  cases hi : isStringInSortedArray k options.IgnoreModules with
  | error p => rw [hi] at h; exact Except.noConfusion h
  | ok b =>
    rw [hi] at h
    cases b with
    | true =>
      simp only [Except.ok.injEq, Prod.mk.injEq] at h
      rw [← h.1]
    | false =>
      simp only at h
      cases hg : mapGet st.Mods k with
      | some md =>
        rw [hg] at h
        simp only [Except.ok.injEq, Prod.mk.injEq] at h
        rw [← h.1]
      | none =>
        rw [hg] at h
        simp only [Except.ok.injEq, Prod.mk.injEq] at h
        rw [← h.1]

theorem addDependency_nodup (st : LoopState) (omd odep : Option Module)
    (h : ∀ u, (depsOf st.Dependencies u).Nodup) :
    ∀ u, (depsOf (addDependency st omd odep).Dependencies u).Nodup := by
  cases omd with
  | none => exact h
  | some md =>
    cases odep with
    | none => exact h
    | some depmd =>
      intro u
      cases hh : hasDependency st.Dependencies md.ID depmd.ID with
      | true =>
        simp only [addDependency, hh, Bool.not_true, Bool.false_eq_true, if_false]
        exact h u
      | false =>
        simp only [addDependency, hh, Bool.not_false, if_true]
        rw [depsOf_mapSet]
        by_cases hu : md.ID = u
        · rw [if_pos hu]
          have hnot : depmd.ID ∉ depsOf st.Dependencies md.ID := by
            intro hin
            have : hasDependency st.Dependencies md.ID depmd.ID = true := by
              unfold hasDependency
              rw [List.any_eq_true]
              exact ⟨depmd.ID, hin, by simp⟩
            rw [hh] at this
            exact Bool.noConfusion this
          rw [List.nodup_append]
          refine ⟨h _, List.nodup_singleton _, ?_⟩
          intro a ha hb
          rw [List.mem_singleton] at hb
          exact hnot (hb ▸ ha)
        · rw [if_neg hu]
          exact h u

theorem processRecord_nodup (options : ParseOptions) (st : LoopState) (p c : Str)
    (h : ∀ u, (depsOf st.Dependencies u).Nodup) :
    ∀ u, (depsOf (processRecord options st p c).1.Dependencies u).Nodup := by
  unfold processRecord
  simp only
  generalize (if options.IgnoreVersion = true then stripModuleVersion p else p) = kp
  generalize (if options.IgnoreVersion = true then stripModuleVersion c else c) = kc
  generalize (if st.topModule = [] then kp else st.topModule) = top
  by_cases hc : (options.IgnoreIndirect && decide (top ≠ kp)) = true
  · rw [if_pos hc]
    exact h
  · rw [if_neg hc]
    cases h1 : resolveModule options
        { topModule := top, serialID := st.serialID, Mods := st.Mods,
          Dependencies := st.Dependencies } kp p with
    | error e => exact h
    | ok pr =>
      obtain ⟨st1, md⟩ := pr
      have e1 := resolveModule_deps _ _ _ _ _ _ h1
      simp only at e1 ⊢
      cases h2 : resolveModule options st1 kc c with
      | error e =>
        simp only
        rw [e1]
        exact h
      | ok pr2 =>
        obtain ⟨st2, depmd⟩ := pr2
        have e2 := resolveModule_deps _ _ _ _ _ _ h2
        simp only
        apply addDependency_nodup
        rw [e2, e1]
        exact h

theorem parseRelation_nodup (options : ParseOptions) (st : LoopState) (l : Str)
    (h : ∀ u, (depsOf st.Dependencies u).Nodup) :
    ∀ u, (depsOf (parseRelation options st l).1.Dependencies u).Nodup := by
  unfold parseRelation
  split
  · exact processRecord_nodup options st _ _ h
  · exact h

theorem parseLoop_nodup (options : ParseOptions) (failure : Option ReadError) :
    ∀ (chunks : List Str) (st : LoopState), (∀ u, (depsOf st.Dependencies u).Nodup) →
      ∀ u, (depsOf (parseLoop options failure st chunks).1.Dependencies u).Nodup
  | [], st, h => h
  | l :: rest, st, h => by
    have h1 := parseRelation_nodup options st l h
    unfold parseLoop
    cases hr : parseRelation options st l with
    | mk st1 op =>
      rw [hr] at h1
      cases op with
      | some p => exact h1
      | none => exact parseLoop_nodup options failure rest st1 h1

theorem Parse_nodup (options : ParseOptions) (r : Reader) (u : Nat) :
    (depsOf (Parse (NewModuleGraph r) options).graph.Dependencies u).Nodup := by
  have h := parseLoop_nodup options r.failure r.chunks
    { topModule := [], serialID := 1, Mods := [], Dependencies := [] }
    (fun _ => List.nodup_nil) u
  unfold Parse
  simp only [NewModuleGraph]
  cases hl : parseLoop options r.failure
      { topModule := [], serialID := 1, Mods := [], Dependencies := [] } r.chunks with
  | mk st res =>
    rw [hl] at h
    cases res <;> exact h

end Modv

namespace Modv

theorem mem_targetsOf (options : ParseOptions) (m : List (Str × Module))
    (recs : List (Str × Str)) (u v : Nat) :
    v ∈ targetsOf options m recs u ↔ ∃ r ∈ recs, edgeOf options m r = some (u, v) := by
  unfold targetsOf
  simp only [List.mem_map, List.mem_filter, List.mem_filterMap, decide_eq_true_eq]
  constructor
  · rintro ⟨e, ⟨⟨r, hr, he⟩, hu⟩, hv⟩
    refine ⟨r, hr, ?_⟩
    rw [he, ← hu, ← hv]
  · rintro ⟨r, hr, he⟩
    exact ⟨(u, v), ⟨⟨r, hr, he⟩, rfl⟩, rfl⟩

theorem nodup_firstSeen_id (xs : List Nat) : (firstSeen id xs).Nodup := by
  have := nodup_firstSeen_map (id : Nat → Nat) xs
  simpa using this

/-- With an unsorted exclusion list the first record already panics. -/
theorem processRecord_unsorted (options : ParseOptions)
    (hns : stringsAreSorted options.IgnoreModules = false) (st : LoopState)
    (htop : st.topModule = []) (p c : Str) :
    (processRecord options st p c).2 = some (.message "Strings expected to be sorted") := by
  unfold processRecord
  simp only [htop, if_true, ne_eq, not_true_eq_false, decide_False, Bool.and_false,
    Bool.false_eq_true, if_false, resolveModule, isStringInSortedArray, hns, Bool.not_false]

theorem Parse_unsorted (options : ParseOptions)
    (hns : stringsAreSorted options.IgnoreModules = false) (nl : Bool) (r : Str × Str)
    (rest : List (Str × Str)) (hid : ∀ x ∈ r :: rest, IsIdent x.1 ∧ IsIdent x.2) :
    ∃ g, Parse (NewModuleGraph (bytesReader (encodeRecords nl (r :: rest)))) options
      = .panicked (.message "Strings expected to be sorted") g := by
  have hloop := parseLoop_encode options nl (r :: rest) hid
    { topModule := [], serialID := 1, Mods := [], Dependencies := [] }
  have hp := processRecord_unsorted options hns
    { topModule := [], serialID := 1, Mods := [], Dependencies := [] } rfl
    (trimSpace r.1) (trimSpace r.2)
  have hrun : (runRecords options
      { topModule := [], serialID := 1, Mods := [], Dependencies := [] }
      (trimRecords (r :: rest))).2 = some (.message "Strings expected to be sorted") := by
    simp only [trimRecords, List.map_cons, runRecords]
    cases hpr : processRecord options
        { topModule := [], serialID := 1, Mods := [], Dependencies := [] }
        (trimSpace r.1) (trimSpace r.2) with
    | mk st1 op =>
      rw [hpr] at hp
      simp only at hp
      rw [hp]
  rw [hrun] at hloop
  simp only [Parse, NewModuleGraph, bytesReader, Reader.chunks]
  rw [hloop]
  exact ⟨_, rfl⟩

/-- C3 (dedup invariant): whatever the reader and the options, the graph that `Parse`
leaves has no value twice in any adjacency list `Dependencies[u]`; and after `Parse` has
returned on a well-formed input, every processed record whose two keys are not excluded
has a module under its parent key and a module under its child key, and the identifier
`v` of the child module occurs exactly once in `Dependencies[u]`, `u` the identifier of
the parent module, however often the edge appears in the input: `"a b\na b\na b\n"`
gives the adjacency table 1: [2]. -/
theorem Parse_dedup (options : ParseOptions) (nl : Bool) (recs : List (Str × Str))
    (g : ModuleGraph) (hid : ∀ r ∈ recs, IsIdent r.1 ∧ IsIdent r.2)
    (hret : Parse (NewModuleGraph (bytesReader (encodeRecords nl recs))) options
      = .returned none g) :
    (∀ (r : Reader) (u : Nat),
      (depsOf (Parse (NewModuleGraph r) options).graph.Dependencies u).Nodup) ∧
    (∀ u, (depsOf g.Dependencies u).Nodup) ∧
    (∀ r ∈ keptRecords options [] (trimRecords recs),
      moduleKey options r.1 ∉ options.IgnoreModules →
      moduleKey options r.2 ∉ options.IgnoreModules →
      ∃ mp mc, mapGet g.Mods (moduleKey options r.1) = some mp ∧
        mapGet g.Mods (moduleKey options r.2) = some mc ∧
        (depsOf g.Dependencies mp.ID).count mc.ID = 1) ∧
    (∀ r ∈ keptRecords options [] (trimRecords recs), ∀ u v,
      edgeOf options g.Mods r = some (u, v) → (depsOf g.Dependencies u).count v = 1) ∧
    Parse (NewModuleGraph (textReader "a b\na b\na b\n")) defaultOptions
      = .returned none
          { Reader := textReader "a b\na b\na b\n",
            Mods := [("a".toList, ⟨1, [], "a".toList, []⟩), ("b".toList, ⟨2, [], "b".toList, []⟩)],
            Dependencies := [(1, [2])] } := by
  have hedge : ∀ r ∈ keptRecords options [] (trimRecords recs), ∀ u v,
      edgeOf options g.Mods r = some (u, v) → (depsOf g.Dependencies u).count v = 1 := by
    cases hs : stringsAreSorted options.IgnoreModules with
    | false =>
      cases recs with
      | nil =>
        intro r hr
        simp [trimRecords, keptRecords] at hr
      | cons x rest =>
        obtain ⟨g1, hp⟩ := Parse_unsorted options hs nl x rest hid
        rw [hp] at hret
        exact ParseResult.noConfusion hret
    | true =>
      obtain ⟨st, hparse, hM, hS, hD, hE⟩ := Parse_wellFormed options hs nl recs hid
      rw [hparse] at hret
      injection hret with _ hg
      subst hg
      intro r hr u v he
      apply List.count_eq_one_of_mem
      · show (depsOf st.Dependencies u).Nodup
        rw [hD]
        exact nodup_firstSeen_id _
      · show v ∈ depsOf st.Dependencies u
        rw [hD, mem_firstSeen_id, mem_targetsOf]
        exact ⟨r, hr, he⟩
  have hmods : ∀ r ∈ keptRecords options [] (trimRecords recs),
      (moduleKey options r.1 ∉ options.IgnoreModules →
        ∃ md, mapGet g.Mods (moduleKey options r.1) = some md) ∧
      (moduleKey options r.2 ∉ options.IgnoreModules →
        ∃ md, mapGet g.Mods (moduleKey options r.2) = some md) := by
    cases hs : stringsAreSorted options.IgnoreModules with
    | false =>
      cases recs with
      | nil =>
        intro r hr
        simp [trimRecords, keptRecords] at hr
      | cons x rest =>
        obtain ⟨g1, hp⟩ := Parse_unsorted options hs nl x rest hid
        rw [hp] at hret
        exact ParseResult.noConfusion hret
    | true =>
      obtain ⟨st, hparse, hM, hS, hD, hE⟩ := Parse_wellFormed options hs nl recs hid
      rw [hparse] at hret
      injection hret with _ hg
      subst hg
      intro r hr
      show (_ → ∃ md, mapGet st.Mods _ = some md) ∧ (_ → ∃ md, mapGet st.Mods _ = some md)
      rw [hM]
      constructor
      · intro h
        exact mapGet_expectedMods_of_mem options _ _ ((mem_includedTokens options _ r hr).1 h)
      · intro h
        exact mapGet_expectedMods_of_mem options _ _ ((mem_includedTokens options _ r hr).2 h)
  refine ⟨fun r u => Parse_nodup options r u, ?_, ?_, hedge, by decide⟩
  · intro u
    have := Parse_nodup options (bytesReader (encodeRecords nl recs)) u
    rw [hret] at this
    exact this
  · intro r hr h1 h2
    obtain ⟨mp, hmp⟩ := (hmods r hr).1 h1
    obtain ⟨mc, hmc⟩ := (hmods r hr).2 h2
    refine ⟨mp, mc, hmp, hmc, hedge r hr mp.ID mc.ID ?_⟩
    unfold edgeOf
    rw [if_neg (fun h => h.elim h1 h2)]
    simp only [moduleID, hmp, hmc, Option.map_some']

end Modv

namespace Modv

/-! ## Version stripping -/

theorem splitAfter_ne_nil (sep : Char) (s : Str) : splitAfter sep s ≠ [] := by
  induction s with
  | nil => simp [splitAfter]
  | cons c cs ih =>
    simp only [splitAfter]
    split
    · simp
    · split <;> simp

theorem splitAfter_headD (sep : Char) (s : Str) :
    (splitAfter sep s).headD []
      = s.takeWhile (fun c => decide (c ≠ sep)) ++ (if sep ∈ s then [sep] else []) := by
  induction s with
  | nil => simp [splitAfter]
  | cons c cs ih =>
    by_cases hc : c = sep
    · subst hc
      simp [splitAfter, List.takeWhile_cons]
    · have hmem : (sep ∈ c :: cs) ↔ sep ∈ cs := by
        rw [List.mem_cons]
        constructor
        · rintro (e | h)
          · exact absurd e.symm hc
          · exact h
        · exact Or.inr
      cases hsp : splitAfter sep cs with
      | nil => exact absurd hsp (splitAfter_ne_nil sep cs)
      | cons w ws =>
        rw [hsp] at ih
        simp only [List.headD_cons] at ih
        simp only [splitAfter, hc, if_false, hsp, List.headD_cons, List.takeWhile_cons, ne_eq,
          not_false_eq_true, decide_True, if_true, ih, hmem, List.cons_append]

theorem trimRight_concat (t : Str) (sep : Char) : trimRight (t ++ [sep]) sep = trimRight t sep := by
  simp [trimRight, List.dropWhile_cons]

theorem trimRight_of_not_mem (t : Str) (sep : Char) (h : sep ∉ t) : trimRight t sep = t := by
  unfold trimRight
  cases hr : t.reverse with
  | nil =>
    have : t = [] := by simpa using hr
    simp [this]
  | cons x xs =>
    have hx : x ∈ t := by
      have : x ∈ t.reverse := by rw [hr]; simp
      simpa using this
    have hne : (x == sep) = false := by
      simp only [beq_eq_false_iff_ne, ne_eq]
      intro e
      exact h (e ▸ hx)
    rw [List.dropWhile_cons, hne]
    simp only [Bool.false_eq_true, if_false]
    rw [← hr, List.reverse_reverse]

/-- The source's `stripModuleVersion` is the part of the identifier before its first
`'@'`. -/
theorem stripModuleVersion_eq_takeWhile (s : Str) :
    stripModuleVersion s = s.takeWhile (fun c => decide (c ≠ '@')) := by
  have hnot : '@' ∉ s.takeWhile (fun c => decide (c ≠ '@')) := by
    intro h
    have := List.mem_takeWhile_imp h
    simp at this
  unfold stripModuleVersion
  rw [splitAfter_headD]
  by_cases hm : '@' ∈ s
  · rw [if_pos hm, trimRight_concat, trimRight_of_not_mem _ _ hnot]
  · rw [if_neg hm, List.append_nil, trimRight_of_not_mem _ _ hnot]

theorem takeWhile_append_sep (sep : Char) (b v : Str) :
    (b ++ sep :: v).takeWhile (fun c => decide (c ≠ sep))
      = b.takeWhile (fun c => decide (c ≠ sep)) := by
  induction b with
  | nil => simp [List.takeWhile_cons]
  | cons c cs ih =>
    by_cases hc : c = sep
    · simp [List.takeWhile_cons, hc]
    · rw [List.cons_append, List.takeWhile_cons, List.takeWhile_cons, ih]

/-- Identifiers that differ only in what follows an `'@'` have the same folded key. -/
theorem stripModuleVersion_append_version (b v : Str) :
    stripModuleVersion (b ++ '@' :: v) = stripModuleVersion b := by
  rw [stripModuleVersion_eq_takeWhile, stripModuleVersion_eq_takeWhile, takeWhile_append_sep]

/-! ## Which identifier a module is built from -/

/-- The module stored under a key is built from the first identifier with that key. -/
theorem mapGet_expectedMods_find (options : ParseOptions) (toks : List Str) (k : Str)
    (hk : k ∈ toks.map (moduleKey options)) :
    ∃ i t0, toks.find? (fun x => decide (moduleKey options x = k)) = some t0 ∧
      mapGet (expectedMods options toks) k = some (newModule i t0) := by
  induction toks using List.reverseRecOn with
  | nil => simp at hk
  | append_singleton toks x ih =>
    rw [expectedMods_concat, List.find?_append]
    by_cases hin : k ∈ toks.map (moduleKey options)
    · obtain ⟨i, t0, hf, hg⟩ := ih hin
      refine ⟨i, t0, by rw [hf]; rfl, ?_⟩
      by_cases hx : moduleKey options x ∈ toks.map (moduleKey options)
      · rw [if_pos hx]; exact hg
      · rw [if_neg hx]; exact mapGet_append_of_some _ _ _ _ hg
    · have hkx : moduleKey options x = k := by
        rw [List.map_append, List.mem_append] at hk
        rcases hk with h | h
        · exact absurd h hin
        · rw [List.map_cons, List.map_nil, List.mem_singleton] at h
          exact h.symm
      have hnone : toks.find? (fun y => decide (moduleKey options y = k)) = none := by
        rw [List.find?_eq_none]
        intro y hy hyk
        have e : moduleKey options y = k := of_decide_eq_true hyk
        exact hin (e ▸ List.mem_map_of_mem (moduleKey options) hy)
      have hx : moduleKey options x ∉ toks.map (moduleKey options) := by rw [hkx]; exact hin
      refine ⟨(expectedMods options toks).length + 1, x, ?_, ?_⟩
      · rw [hnone]
        simp [List.find?_cons, hkx]
      · rw [if_neg hx, mapGet_append_of_none _ _ _ ((mapGet_expectedMods_eq_none _ _ _).2 hin),
          hkx]
        simp [mapGet]

theorem edgeOf_eq_some_iff (options : ParseOptions) (m : List (Str × Module)) (r : Str × Str)
    (u v : Nat) :
    edgeOf options m r = some (u, v) ↔
      moduleKey options r.1 ∉ options.IgnoreModules ∧
      moduleKey options r.2 ∉ options.IgnoreModules ∧
      (∃ md, mapGet m (moduleKey options r.1) = some md ∧ md.ID = u) ∧
      (∃ md, mapGet m (moduleKey options r.2) = some md ∧ md.ID = v) := by
  unfold edgeOf moduleID
  by_cases hex : moduleKey options r.1 ∈ options.IgnoreModules
      ∨ moduleKey options r.2 ∈ options.IgnoreModules
  · rw [if_pos hex]
    constructor
    · intro h; exact Option.noConfusion h
    · rintro ⟨h1, h2, _⟩
      rcases hex with h | h
      · exact absurd h h1
      · exact absurd h h2
  · rw [if_neg hex]
    have h1 : moduleKey options r.1 ∉ options.IgnoreModules := fun h => hex (Or.inl h)
    have h2 : moduleKey options r.2 ∉ options.IgnoreModules := fun h => hex (Or.inr h)
    cases ha : mapGet m (moduleKey options r.1) with
    | none => simp
    | some a =>
      cases hb : mapGet m (moduleKey options r.2) with
      | none => simp
      | some b => simp [h1, h2]

end Modv

namespace Modv

/-- C4 (edge set and order): after `Parse` on a well-formed input with a sorted exclusion
list, `v` is in `Dependencies[u]` if and only if some processed record has a non-excluded
parent key whose module has identifier `u` and a non-excluded child key whose module has
identifier `v`; the targets in `Dependencies[u]` are listed in the order in which these
edges first occur in the input.  For `"a b\na c\nb c\n"` with default options the modules
are a = 1, b = 2, c = 3 and the adjacency table is 1: [2, 3], 2: [3]. -/
theorem Parse_edges (options : ParseOptions) (nl : Bool) (recs : List (Str × Str))
    (hs : stringsAreSorted options.IgnoreModules = true)
    (hid : ∀ r ∈ recs, IsIdent r.1 ∧ IsIdent r.2) :
    (∃ g, Parse (NewModuleGraph (bytesReader (encodeRecords nl recs))) options
        = .returned none g ∧
      (∀ u v, v ∈ depsOf g.Dependencies u ↔
        ∃ r ∈ keptRecords options [] (trimRecords recs),
          moduleKey options r.1 ∉ options.IgnoreModules ∧
          moduleKey options r.2 ∉ options.IgnoreModules ∧
          (∃ md, mapGet g.Mods (moduleKey options r.1) = some md ∧ md.ID = u) ∧
          (∃ md, mapGet g.Mods (moduleKey options r.2) = some md ∧ md.ID = v)) ∧
      (∀ u, depsOf g.Dependencies u
        = firstSeen id (targetsOf options g.Mods (keptRecords options [] (trimRecords recs)) u))) ∧
    Parse (NewModuleGraph (textReader "a b\na c\nb c\n")) defaultOptions
      = .returned none
          { Reader := textReader "a b\na c\nb c\n",
            Mods := [("a".toList, ⟨1, [], "a".toList, []⟩), ("b".toList, ⟨2, [], "b".toList, []⟩),
              ("c".toList, ⟨3, [], "c".toList, []⟩)],
            Dependencies := [(1, [2, 3]), (2, [3])] } := by
  refine ⟨?_, by decide⟩
  obtain ⟨st, hparse, hM, hS, hD, hE⟩ := Parse_wellFormed options hs nl recs hid
  refine ⟨_, hparse, ?_, hD⟩
  intro u v
  show v ∈ depsOf st.Dependencies u ↔ _
  rw [hD, mem_firstSeen_id, mem_targetsOf]
  constructor
  · rintro ⟨r, hr, he⟩
    exact ⟨r, hr, (edgeOf_eq_some_iff options st.Mods r u v).1 he⟩
  · rintro ⟨r, hr, he⟩
    exact ⟨r, hr, (edgeOf_eq_some_iff options st.Mods r u v).2 he⟩

/-- C5 (folding invariant): with `IgnoreVersion` on, two raw identifiers of processed
records that differ only in their version suffix are stored as one module, and the `Path`,
`Name` and `Version` of the module stored under a key are those computed from the first
identifier with that key, whatever versions come later.  For `"x@1 y@2\nx@1 y@3\n"` the
result is the modules x (version "1") and y (version "2") and the single edge x -> y. -/
theorem Parse_folding (options : ParseOptions) (nl : Bool) (recs : List (Str × Str))
    (hs : stringsAreSorted options.IgnoreModules = true)
    (hid : ∀ r ∈ recs, IsIdent r.1 ∧ IsIdent r.2) (hfold : options.IgnoreVersion = true) :
    (∃ g, Parse (NewModuleGraph (bytesReader (encodeRecords nl recs))) options
        = .returned none g ∧
      (g.Mods.map Prod.fst).Nodup ∧
      (∀ t1 ∈ includedTokens options (keptRecords options [] (trimRecords recs)),
        ∀ t2 ∈ includedTokens options (keptRecords options [] (trimRecords recs)),
        ∀ b v1 v2, (t1 = b ∨ t1 = b ++ '@' :: v1) → (t2 = b ∨ t2 = b ++ '@' :: v2) →
        stripModuleVersion t1 = stripModuleVersion t2 ∧
        ∃ md, mapGet g.Mods (stripModuleVersion t1) = some md ∧
          mapGet g.Mods (stripModuleVersion t2) = some md) ∧
      (∀ t ∈ includedTokens options (keptRecords options [] (trimRecords recs)),
        ∃ t0 md,
          (includedTokens options (keptRecords options [] (trimRecords recs))).find?
              (fun x => decide (stripModuleVersion x = stripModuleVersion t)) = some t0 ∧
          mapGet g.Mods (stripModuleVersion t) = some md ∧
          md.Path = getModulePath t0 ∧ md.Name = getModuleName t0 ∧
          md.Version = getModuleVersion t0)) ∧
    Parse (NewModuleGraph (textReader "x@1 y@2\nx@1 y@3\n"))
        { IgnoreVersion := true, IgnoreModules := [], IgnoreIndirect := false }
      = .returned none
          { Reader := textReader "x@1 y@2\nx@1 y@3\n",
            Mods := [("x".toList, ⟨1, [], "x".toList, "1".toList⟩),
              ("y".toList, ⟨2, [], "y".toList, "2".toList⟩)],
            Dependencies := [(1, [2])] } := by
  refine ⟨?_, by decide⟩
  obtain ⟨st, hparse, hM, hS, hD, hE⟩ := Parse_wellFormed options hs nl recs hid
  have hkey : ∀ t, moduleKey options t = stripModuleVersion t := by
    intro t
    simp [moduleKey, hfold]
  have hfind : ∀ t ∈ includedTokens options (keptRecords options [] (trimRecords recs)),
      ∃ i t0,
        (includedTokens options (keptRecords options [] (trimRecords recs))).find?
            (fun x => decide (stripModuleVersion x = stripModuleVersion t)) = some t0 ∧
        mapGet st.Mods (stripModuleVersion t) = some (newModule i t0) := by
    intro t ht
    have := mapGet_expectedMods_find options _ (moduleKey options t)
      (List.mem_map_of_mem _ ht)
    simp only [hkey] at this
    rw [hM]
    exact this
  refine ⟨_, hparse, ?_, ?_, ?_⟩
  · show (st.Mods.map Prod.fst).Nodup
    rw [hM, expectedMods_keys]
    exact nodup_firstSeen_map _ _
  · intro t1 h1 t2 _ b v1 v2 hb1 hb2
    have e1 : stripModuleVersion t1 = stripModuleVersion b := by
      rcases hb1 with h | h
      · rw [h]
      · rw [h, stripModuleVersion_append_version]
    have e2 : stripModuleVersion t2 = stripModuleVersion b := by
      rcases hb2 with h | h
      · rw [h]
      · rw [h, stripModuleVersion_append_version]
    have e : stripModuleVersion t1 = stripModuleVersion t2 := e1.trans e2.symm
    refine ⟨e, ?_⟩
    obtain ⟨i, t0, _, hg⟩ := hfind _ h1
    exact ⟨_, hg, by rw [← e]; exact hg⟩
  · intro t ht
    obtain ⟨i, t0, hf, hg⟩ := hfind t ht
    exact ⟨t0, _, hf, hg, rfl, rfl, rfl⟩

/-- C6 (exclusion invariant): after `Parse` on a well-formed input with a sorted exclusion
list, no key of the module table is in `IgnoreModules`; every identifier in the adjacency
table, source or target, is the `ID` of a module stored under a non-excluded key; and a
non-excluded side of a processed record has its module even when the other side is
excluded. -/
theorem Parse_exclusion (options : ParseOptions) (nl : Bool) (recs : List (Str × Str))
    (hs : stringsAreSorted options.IgnoreModules = true)
    (hid : ∀ r ∈ recs, IsIdent r.1 ∧ IsIdent r.2) :
    ∃ g, Parse (NewModuleGraph (bytesReader (encodeRecords nl recs))) options
        = .returned none g ∧
      (∀ k ∈ g.Mods.map Prod.fst, k ∉ options.IgnoreModules) ∧
      (∀ e ∈ g.Dependencies,
        (∃ k md, k ∉ options.IgnoreModules ∧ mapGet g.Mods k = some md ∧ md.ID = e.1) ∧
        ∀ v ∈ e.2, ∃ k md, k ∉ options.IgnoreModules ∧ mapGet g.Mods k = some md ∧ md.ID = v) ∧
      (∀ r ∈ keptRecords options [] (trimRecords recs),
        (moduleKey options r.1 ∉ options.IgnoreModules →
          ∃ md, mapGet g.Mods (moduleKey options r.1) = some md) ∧
        (moduleKey options r.2 ∉ options.IgnoreModules →
          ∃ md, mapGet g.Mods (moduleKey options r.2) = some md)) := by
  obtain ⟨st, hparse, hM, hS, hD, hE⟩ := Parse_wellFormed options hs nl recs hid
  have hkeys : ∀ k ∈ st.Mods.map Prod.fst, k ∉ options.IgnoreModules := by
    intro k hk
    rw [hM, expectedMods_keys, mem_firstSeen_map, List.mem_map] at hk
    obtain ⟨t, ht, htk⟩ := hk
    rw [← htk]
    exact not_excluded_of_mem_includedTokens options _ t ht
  have hget : ∀ k md, mapGet st.Mods k = some md → k ∉ options.IgnoreModules := by
    intro k md hk
    apply hkeys
    by_contra hn
    rw [(mapGet_eq_none_iff st.Mods k).2 hn] at hk
    exact Option.noConfusion hk
  refine ⟨_, hparse, hkeys, ?_, ?_⟩
  · intro e he
    obtain ⟨⟨k, md, hk, hid1⟩, hv⟩ := hE e he
    refine ⟨⟨k, md, hget k md hk, hk, hid1⟩, ?_⟩
    intro v hvm
    obtain ⟨k1, md1, hk1, hid2⟩ := hv v hvm
    exact ⟨k1, md1, hget k1 md1 hk1, hk1, hid2⟩
  · intro r hr
    show (_ → ∃ md, mapGet st.Mods _ = some md) ∧ (_ → ∃ md, mapGet st.Mods _ = some md)
    rw [hM]
    constructor
    · intro h
      exact mapGet_expectedMods_of_mem options _ _ ((mem_includedTokens options _ r hr).1 h)
    · intro h
      exact mapGet_expectedMods_of_mem options _ _ ((mem_includedTokens options _ r hr).2 h)

end Modv

namespace Modv

theorem Parse_ids_first_seen_witness :
    ∃ g, Parse (NewModuleGraph (bytesReader (encodeRecords true exampleRecords))) exampleOptions
        = .returned none g ∧
      (∀ i k, (firstSeen id ((includedTokens exampleOptions
            (keptRecords exampleOptions [] (trimRecords exampleRecords))).map
              (moduleKey exampleOptions)))[i]? = some k →
          ∃ md, mapGet g.Mods k = some md ∧ md.ID = i + 1) ∧
      (∀ k, k ∈ g.Mods.map Prod.fst ↔
        k ∈ firstSeen id ((includedTokens exampleOptions
            (keptRecords exampleOptions [] (trimRecords exampleRecords))).map
              (moduleKey exampleOptions))) ∧
      g.Mods.map (fun e => e.2.ID) = List.range' 1 g.Mods.length ∧
      g.Mods.length = (firstSeen id ((includedTokens exampleOptions
            (keptRecords exampleOptions [] (trimRecords exampleRecords))).map
              (moduleKey exampleOptions))).length :=
  Parse_ids_first_seen exampleOptions true exampleRecords (by decide)
    (by simp [exampleRecords, IsIdent])

theorem Parse_dedup_witness :
    (∀ (r : Reader) (u : Nat),
      (depsOf (Parse (NewModuleGraph r) exampleOptions).graph.Dependencies u).Nodup) ∧
    (∀ u, (depsOf (Parse (NewModuleGraph (bytesReader (encodeRecords true exampleRecords)))
        exampleOptions).graph.Dependencies u).Nodup) ∧
    (∀ r ∈ keptRecords exampleOptions [] (trimRecords exampleRecords),
      moduleKey exampleOptions r.1 ∉ exampleOptions.IgnoreModules →
      moduleKey exampleOptions r.2 ∉ exampleOptions.IgnoreModules →
      ∃ mp mc,
        mapGet (Parse (NewModuleGraph (bytesReader (encodeRecords true exampleRecords)))
          exampleOptions).graph.Mods (moduleKey exampleOptions r.1) = some mp ∧
        mapGet (Parse (NewModuleGraph (bytesReader (encodeRecords true exampleRecords)))
          exampleOptions).graph.Mods (moduleKey exampleOptions r.2) = some mc ∧
        (depsOf (Parse (NewModuleGraph (bytesReader (encodeRecords true exampleRecords)))
          exampleOptions).graph.Dependencies mp.ID).count mc.ID = 1) ∧
    (∀ r ∈ keptRecords exampleOptions [] (trimRecords exampleRecords), ∀ u v,
      edgeOf exampleOptions (Parse (NewModuleGraph (bytesReader
          (encodeRecords true exampleRecords))) exampleOptions).graph.Mods r = some (u, v) →
        (depsOf (Parse (NewModuleGraph (bytesReader (encodeRecords true exampleRecords)))
          exampleOptions).graph.Dependencies u).count v = 1) ∧
    Parse (NewModuleGraph (textReader "a b\na b\na b\n")) defaultOptions
      = .returned none
          { Reader := textReader "a b\na b\na b\n",
            Mods := [("a".toList, ⟨1, [], "a".toList, []⟩), ("b".toList, ⟨2, [], "b".toList, []⟩)],
            Dependencies := [(1, [2])] } :=
  Parse_dedup exampleOptions true exampleRecords
    (Parse (NewModuleGraph (bytesReader (encodeRecords true exampleRecords)))
      exampleOptions).graph
    (by simp [exampleRecords, IsIdent]) (by decide)

theorem Parse_edges_witness :
    (∃ g, Parse (NewModuleGraph (bytesReader (encodeRecords true exampleRecords))) exampleOptions
        = .returned none g ∧
      (∀ u v, v ∈ depsOf g.Dependencies u ↔
        ∃ r ∈ keptRecords exampleOptions [] (trimRecords exampleRecords),
          moduleKey exampleOptions r.1 ∉ exampleOptions.IgnoreModules ∧
          moduleKey exampleOptions r.2 ∉ exampleOptions.IgnoreModules ∧
          (∃ md, mapGet g.Mods (moduleKey exampleOptions r.1) = some md ∧ md.ID = u) ∧
          (∃ md, mapGet g.Mods (moduleKey exampleOptions r.2) = some md ∧ md.ID = v)) ∧
      (∀ u, depsOf g.Dependencies u
        = firstSeen id (targetsOf exampleOptions g.Mods
            (keptRecords exampleOptions [] (trimRecords exampleRecords)) u))) ∧
    Parse (NewModuleGraph (textReader "a b\na c\nb c\n")) defaultOptions
      = .returned none
          { Reader := textReader "a b\na c\nb c\n",
            Mods := [("a".toList, ⟨1, [], "a".toList, []⟩), ("b".toList, ⟨2, [], "b".toList, []⟩),
              ("c".toList, ⟨3, [], "c".toList, []⟩)],
            Dependencies := [(1, [2, 3]), (2, [3])] } :=
  Parse_edges exampleOptions true exampleRecords (by decide)
    (by simp [exampleRecords, IsIdent])

theorem Parse_folding_witness :
    (∃ g, Parse (NewModuleGraph (bytesReader (encodeRecords true exampleRecords))) exampleOptions
        = .returned none g ∧
      (g.Mods.map Prod.fst).Nodup ∧
      (∀ t1 ∈ includedTokens exampleOptions
          (keptRecords exampleOptions [] (trimRecords exampleRecords)),
        ∀ t2 ∈ includedTokens exampleOptions
          (keptRecords exampleOptions [] (trimRecords exampleRecords)),
        ∀ b v1 v2, (t1 = b ∨ t1 = b ++ '@' :: v1) → (t2 = b ∨ t2 = b ++ '@' :: v2) →
        stripModuleVersion t1 = stripModuleVersion t2 ∧
        ∃ md, mapGet g.Mods (stripModuleVersion t1) = some md ∧
          mapGet g.Mods (stripModuleVersion t2) = some md) ∧
      (∀ t ∈ includedTokens exampleOptions
          (keptRecords exampleOptions [] (trimRecords exampleRecords)),
        ∃ t0 md,
          (includedTokens exampleOptions
            (keptRecords exampleOptions [] (trimRecords exampleRecords))).find?
              (fun x => decide (stripModuleVersion x = stripModuleVersion t)) = some t0 ∧
          mapGet g.Mods (stripModuleVersion t) = some md ∧
          md.Path = getModulePath t0 ∧ md.Name = getModuleName t0 ∧
          md.Version = getModuleVersion t0)) ∧
    Parse (NewModuleGraph (textReader "x@1 y@2\nx@1 y@3\n"))
        { IgnoreVersion := true, IgnoreModules := [], IgnoreIndirect := false }
      = .returned none
          { Reader := textReader "x@1 y@2\nx@1 y@3\n",
            Mods := [("x".toList, ⟨1, [], "x".toList, "1".toList⟩),
              ("y".toList, ⟨2, [], "y".toList, "2".toList⟩)],
            Dependencies := [(1, [2])] } :=
  Parse_folding exampleOptions true exampleRecords (by decide)
    (by simp [exampleRecords, IsIdent]) rfl

theorem Parse_exclusion_witness :
    ∃ g, Parse (NewModuleGraph (bytesReader (encodeRecords true exampleRecords))) exampleOptions
        = .returned none g ∧
      (∀ k ∈ g.Mods.map Prod.fst, k ∉ exampleOptions.IgnoreModules) ∧
      (∀ e ∈ g.Dependencies,
        (∃ k md, k ∉ exampleOptions.IgnoreModules ∧ mapGet g.Mods k = some md ∧ md.ID = e.1) ∧
        ∀ v ∈ e.2, ∃ k md,
          k ∉ exampleOptions.IgnoreModules ∧ mapGet g.Mods k = some md ∧ md.ID = v) ∧
      (∀ r ∈ keptRecords exampleOptions [] (trimRecords exampleRecords),
        (moduleKey exampleOptions r.1 ∉ exampleOptions.IgnoreModules →
          ∃ md, mapGet g.Mods (moduleKey exampleOptions r.1) = some md) ∧
        (moduleKey exampleOptions r.2 ∉ exampleOptions.IgnoreModules →
          ∃ md, mapGet g.Mods (moduleKey exampleOptions r.2) = some md)) :=
  Parse_exclusion exampleOptions true exampleRecords (by decide)
    (by simp [exampleRecords, IsIdent])

end Modv

namespace Modv

/-! ## Whitespace around the tokens of a line -/

theorem dropWhile_of_all_false (q : Char → Bool) (l : Str) (h : ∀ x ∈ l, q x = false) :
    l.dropWhile q = l := by
  cases l with
  | nil => rfl
  | cons x xs =>
    rw [List.dropWhile_cons, h x (by simp)]
    rfl

theorem trimSpace_of_no_space (p : Str) (h : ∀ x ∈ p, isSpace x = false) : trimSpace p = p := by
  unfold trimSpace
  rw [dropWhile_of_all_false isSpace p h,
    dropWhile_of_all_false isSpace p.reverse (fun x hx => h x (List.mem_reverse.1 hx)),
    List.reverse_reverse]

theorem trimSpace_append_spaces (s b : Str) (hb : ∀ x ∈ b, isSpace x = true) :
    trimSpace (s ++ b) = trimSpace s := by
  induction b using List.reverseRecOn with
  | nil => rw [List.append_nil]
  | append_singleton b x ih =>
    rw [← List.append_assoc, trimSpace_concat_space _ x (hb x (by simp))]
    exact ih (fun y hy => hb y (List.mem_append_left _ hy))

theorem trimSpace_spaces_append (a s : Str) (ha : ∀ x ∈ a, isSpace x = true) :
    trimSpace (a ++ s) = trimSpace s := by
  induction a with
  | nil => rfl
  | cons x a ih =>
    rw [List.cons_append, trimSpace_cons_space x _ (ha x (by simp))]
    exact ih (fun y hy => ha y (List.mem_cons_of_mem _ hy))

/-- White space around a token without white space is trimmed away. -/
theorem trimSpace_pad (a p b : Str) (ha : ∀ x ∈ a, isSpace x = true)
    (hb : ∀ x ∈ b, isSpace x = true) (hp : ∀ x ∈ p, isSpace x = false) :
    trimSpace (a ++ p ++ b) = p := by
  rw [trimSpace_append_spaces _ b hb, trimSpace_spaces_append a p ha, trimSpace_of_no_space p hp]

theorem bytesSplit_head (sep : Char) (s : Str) :
    ∃ rest, bytesSplit sep s = s.takeWhile (fun c => decide (c ≠ sep)) :: rest := by
  induction s with
  | nil => exact ⟨[], rfl⟩
  | cons c cs ih =>
    obtain ⟨rest, hrest⟩ := ih
    by_cases hc : c = sep
    · exact ⟨bytesSplit sep cs, by simp [bytesSplit, List.takeWhile_cons, hc]⟩
    · refine ⟨rest, ?_⟩
      simp only [bytesSplit, hc, if_false, hrest, List.takeWhile_cons, ne_eq, not_false_eq_true,
        decide_True, if_true]

theorem takeWhile_append_of_all (q : Char → Bool) (l r : Str) (h : ∀ x ∈ l, q x = true) :
    (l ++ r).takeWhile q = l ++ r.takeWhile q := by
  induction l with
  | nil => rfl
  | cons x l ih =>
    rw [List.cons_append, List.takeWhile_cons, h x (by simp)]
    simp only [if_true, List.cons_append]
    rw [ih (fun y hy => h y (List.mem_cons_of_mem _ hy))]

/-- What the loop does tolerate: the line is split at every single space character, so
the parent and child identifiers are recovered when exactly one space stands between them,
whatever other white space surrounds the identifiers and that space, and whatever white
space (spaces included) follows the child. -/
theorem splitRelation_trims (lead p m1 m2 c trail : Str)
    (hlead : ∀ x ∈ lead, isSpace x = true ∧ x ≠ ' ')
    (hp : ∀ x ∈ p, isSpace x = false)
    (hm1 : ∀ x ∈ m1, isSpace x = true ∧ x ≠ ' ')
    (hm2 : ∀ x ∈ m2, isSpace x = true ∧ x ≠ ' ')
    (hc : ∀ x ∈ c, isSpace x = false)
    (htrail : ∀ x ∈ trail, isSpace x = true) :
    splitRelation (lead ++ p ++ m1 ++ ' ' :: (m2 ++ c ++ trail)) = .ok (p, c) ∧
    ∀ options st,
      parseRelation options st (lead ++ p ++ m1 ++ ' ' :: (m2 ++ c ++ trail))
        = processRecord options st p c := by
  have hsp : isSpace ' ' = true := by decide
  have hnp : ∀ x ∈ p, x ≠ ' ' := by
    intro x hx e
    have := hp x hx
    rw [e, hsp] at this
    exact Bool.noConfusion this
  have hnc : ∀ x ∈ c, x ≠ ' ' := by
    intro x hx e
    have := hc x hx
    rw [e, hsp] at this
    exact Bool.noConfusion this
  have hA : ' ' ∉ lead ++ p ++ m1 := by
    intro h
    rcases List.mem_append.1 h with h | h
    · rcases List.mem_append.1 h with h | h
      · exact (hlead _ h).2 rfl
      · exact hnp _ h rfl
    · exact (hm1 _ h).2 rfl
  have hB : (m2 ++ c ++ trail).takeWhile (fun x => decide (x ≠ ' '))
      = m2 ++ c ++ trail.takeWhile (fun x => decide (x ≠ ' ')) := by
    apply takeWhile_append_of_all
    intro x hx
    rcases List.mem_append.1 hx with h | h
    · simpa using (hm2 x h).2
    · simpa using hnc x h
  obtain ⟨rest, hrest⟩ := bytesSplit_head ' ' (m2 ++ c ++ trail)
  have hsplit : splitRelation (lead ++ p ++ m1 ++ ' ' :: (m2 ++ c ++ trail)) = .ok (p, c) := by
    unfold splitRelation
    rw [bytesSplit_append_sep ' ' _ _ hA, hrest, hB]
    simp only
    rw [trimSpace_pad lead p m1 (fun x hx => (hlead x hx).1) (fun x hx => (hm1 x hx).1) hp,
      trimSpace_pad m2 c _ (fun x hx => (hm2 x hx).1)
        (fun x hx => htrail x ((List.takeWhile_sublist _).subset hx)) hc]
  refine ⟨hsplit, ?_⟩
  intro options st
  unfold parseRelation
  rw [hsplit]

/-- C10 (whitespace trimming): the code splits the line at every space before it trims
the pieces, so the `TrimSpace` of `relation[0]` and `relation[1]` never sees a space that
precedes the parent or a second space between the identifiers: on `"a  b\n"` the child is
the empty string, on `" a b\n"` the parent is the empty string and the child is `a`, and
`Parse` creates a module with the empty key on both lines (no module `b` at all on the
second).  So it is not true that every
line made of optional white space, a parent, one or more white space characters, a child
and optional white space is read as that parent and child. -/
theorem splitRelation_extra_whitespace :
    splitRelation "a  b\n".toList = .ok ("a".toList, []) ∧
    splitRelation " a b\n".toList = .ok ([], "a".toList) ∧
    Parse (NewModuleGraph (textReader "a  b\n")) defaultOptions
      = .returned none
          { Reader := textReader "a  b\n",
            Mods := [("a".toList, ⟨1, [], "a".toList, []⟩), ([], ⟨2, [], [], []⟩)],
            Dependencies := [(1, [2])] } ∧
    Parse (NewModuleGraph (textReader " a b\n")) defaultOptions
      = .returned none
          { Reader := textReader " a b\n",
            Mods := [([], ⟨1, [], [], []⟩), ("a".toList, ⟨2, [], "a".toList, []⟩)],
            Dependencies := [(1, [2])] } ∧
    ¬ ∀ lead p mid c trail : Str,
        (∀ x ∈ lead, isSpace x = true) → p ≠ [] → (∀ x ∈ p, isSpace x = false) →
        mid ≠ [] → (∀ x ∈ mid, isSpace x = true) →
        c ≠ [] → (∀ x ∈ c, isSpace x = false) → (∀ x ∈ trail, isSpace x = true) →
        splitRelation (lead ++ p ++ mid ++ c ++ trail) = .ok (p, c) := by
  refine ⟨rfl, rfl, by decide, by decide, ?_⟩
  intro h
  have h1 := h [] "a".toList "  ".toList "b".toList "\n".toList (by decide) (by decide) (by decide)
    (by decide) (by decide) (by decide) (by decide) (by decide)
  have h2 : splitRelation ([] ++ "a".toList ++ "  ".toList ++ "b".toList ++ "\n".toList)
      = .ok ("a".toList, []) := rfl
  rw [h2] at h1
  injection h1 with h1
  injection h1 with _ h1
  exact absurd h1 (by decide)

theorem splitRelation_trims_witness :
    splitRelation ("\t".toList ++ "a@1".toList ++ "\t".toList ++ ' ' ::
        ("\t".toList ++ "b/c".toList ++ " \r\n".toList)) = .ok ("a@1".toList, "b/c".toList) ∧
    ∀ options st,
      parseRelation options st ("\t".toList ++ "a@1".toList ++ "\t".toList ++ ' ' ::
          ("\t".toList ++ "b/c".toList ++ " \r\n".toList))
        = processRecord options st "a@1".toList "b/c".toList :=
  splitRelation_trims "\t".toList "a@1".toList "\t".toList "\t".toList "b/c".toList
    " \r\n".toList (by decide) (by decide) (by decide) (by decide) (by decide) (by decide)

end Modv

namespace Modv

/-! ## The root key -/

theorem keptRecords_of_root (options : ParseOptions) (top : Str) (htop : top ≠ []) :
    ∀ (recs : List (Str × Str)),
      keptRecords options top recs
        = if options.IgnoreIndirect then
            recs.filter (fun r => decide (moduleKey options r.1 = top))
          else recs
  | [] => by simp [keptRecords]
  | r :: rest => by
    have ih := keptRecords_of_root options top htop rest
    simp only [keptRecords, if_neg htop]
    rw [ih]
    cases hi : options.IgnoreIndirect with
    | false => simp
    | true =>
      by_cases hk : moduleKey options r.1 = top
      · simp [hk, List.filter_cons]
      · have hk1 : ¬ top = moduleKey options r.1 := fun e => hk e.symm
        simp [hk, hk1, List.filter_cons]

/-- When the parent key of the first record is not empty, it is the root key: with
indirect suppression on, exactly the records with that parent key are processed. -/
theorem keptRecords_first (options : ParseOptions) (r : Str × Str) (rest : List (Str × Str))
    (hne : moduleKey options r.1 ≠ []) (hind : options.IgnoreIndirect = true) :
    keptRecords options [] (r :: rest)
      = (r :: rest).filter (fun x => decide (moduleKey options x.1 = moduleKey options r.1)) := by
  simp only [keptRecords, if_true, ne_eq, not_true_eq_false, decide_False, Bool.and_false,
    Bool.false_eq_true, if_false]
  rw [keptRecords_of_root options _ hne rest, hind]
  simp [List.filter_cons]

end Modv

namespace Modv

/-! ## Identifier functions -/

theorem lastIndexAny_eq_none_iff (s : Str) (c : Char) : lastIndexAny s c = none ↔ c ∉ s := by
  induction s with
  | nil => simp [lastIndexAny]
  | cons x xs ih =>
    cases h : lastIndexAny xs c with
    | some i =>
      have hin : c ∈ xs := by
        by_contra hn
        rw [ih.2 hn] at h
        exact Option.noConfusion h
      simp [lastIndexAny, h, hin]
    | none =>
      have hn : c ∉ xs := ih.1 h
      by_cases hx : x = c
      · simp [lastIndexAny, h, hx]
      · have hx1 : ¬ c = x := fun e => hx e.symm
        simp [lastIndexAny, h, hx, hx1, hn]

theorem lastIndexAny_append (a b : Str) (c : Char) (hb : c ∉ b) :
    lastIndexAny (a ++ c :: b) c = some a.length := by
  induction a with
  | nil => simp [lastIndexAny, (lastIndexAny_eq_none_iff b c).2 hb]
  | cons x a ih => simp [lastIndexAny, ih]

theorem lastIndexAny_some (c : Char) :
    ∀ (s : Str) (i : Nat), lastIndexAny s c = some i → s.take i ++ c :: s.drop (i + 1) = s
  | [], i, h => by simp [lastIndexAny] at h
  | x :: xs, i, h => by
    cases hx : lastIndexAny xs c with
    | some j =>
      simp only [lastIndexAny, hx, Option.some.injEq] at h
      subst h
      have ih := lastIndexAny_some c xs j hx
      simp only [List.take_succ_cons, List.drop_succ_cons, List.cons_append, ih]
    | none =>
      simp only [lastIndexAny, hx] at h
      by_cases hc : x = c
      · simp only [hc, if_true, Option.some.injEq] at h
        subst h
        simp [hc]
      · simp [hc] at h

theorem stripModuleVersion_of_not_mem (s : Str) (h : '@' ∉ s) : stripModuleVersion s = s := by
  rw [stripModuleVersion_eq_takeWhile, List.takeWhile_eq_self_iff]
  intro x hx
  simp only [ne_eq, decide_eq_true_eq]
  intro e
  exact h (e ▸ hx)

theorem getModuleVersion_append (a v : Str) (hv : '@' ∉ v) :
    getModuleVersion (a ++ '@' :: v) = v := by
  unfold getModuleVersion
  rw [lastIndexAny_append a v '@' hv]
  simp

/-- C11: for every identifier `P/c@v` where `P` has no `'@'`, `c` has neither `'/'` nor
`'@'` and `v` has no `'@'`, `getModulePath` returns `P`, `getModuleName` returns `c` and
`getModuleVersion` returns `v`; in particular on the identifiers of the tests. -/
theorem getModule_fields (P c v : Str) (hP : '@' ∉ P) (hc1 : '/' ∉ c) (hc2 : '@' ∉ c)
    (hv : '@' ∉ v) :
    (getModulePath (P ++ '/' :: c ++ '@' :: v) = P ∧
      getModuleName (P ++ '/' :: c ++ '@' :: v) = c ∧
      getModuleVersion (P ++ '/' :: c ++ '@' :: v) = v) ∧
    getModuleName "golang.org/x/sys@v0.0.0-20191010194322-b09".toList = "sys".toList ∧
    getModuleName "github.com/fatih/color@v1.7.0".toList = "color".toList ∧
    getModulePath "golang.org/x/sys@v0.0.0-20191010194322-b09".toList = "golang.org/x".toList ∧
    getModulePath "github.com/fatih/color@v1.7.0".toList = "github.com/fatih".toList ∧
    getModuleVersion "golang.org/x/sys@v0.0.0-20191010194322-b09".toList
      = "v0.0.0-20191010194322-b09".toList ∧
    getModuleVersion "github.com/fatih/color@v1.7.0".toList = "v1.7.0".toList := by
  have hb : '@' ∉ P ++ '/' :: c := by
    intro h
    rcases List.mem_append.1 h with h | h
    · exact hP h
    · rcases List.mem_cons.1 h with h | h
      · exact absurd h (by decide)
      · exact hc2 h
  have hstrip : stripModuleVersion (P ++ '/' :: c ++ '@' :: v) = P ++ '/' :: c := by
    rw [stripModuleVersion_append_version, stripModuleVersion_of_not_mem _ hb]
  refine ⟨⟨?_, ?_, ?_⟩, by decide, by decide, by decide, by decide, by decide, by decide⟩
  · unfold getModulePath
    simp only [hstrip]
    rw [lastIndexAny_append P c '/' hc1]
    simp
  · unfold getModuleName stripModulePath
    rw [hstrip, lastIndexAny_append P c '/' hc1]
    simp
  · exact getModuleVersion_append _ v hv

theorem getModule_fields_witness :
    (getModulePath ("a/b".toList ++ '/' :: "c".toList ++ '@' :: "v".toList) = "a/b".toList ∧
      getModuleName ("a/b".toList ++ '/' :: "c".toList ++ '@' :: "v".toList) = "c".toList ∧
      getModuleVersion ("a/b".toList ++ '/' :: "c".toList ++ '@' :: "v".toList) = "v".toList) ∧
    getModuleName "golang.org/x/sys@v0.0.0-20191010194322-b09".toList = "sys".toList ∧
    getModuleName "github.com/fatih/color@v1.7.0".toList = "color".toList ∧
    getModulePath "golang.org/x/sys@v0.0.0-20191010194322-b09".toList = "golang.org/x".toList ∧
    getModulePath "github.com/fatih/color@v1.7.0".toList = "github.com/fatih".toList ∧
    getModuleVersion "golang.org/x/sys@v0.0.0-20191010194322-b09".toList
      = "v0.0.0-20191010194322-b09".toList ∧
    getModuleVersion "github.com/fatih/color@v1.7.0".toList = "v1.7.0".toList :=
  getModule_fields "a/b".toList "c".toList "v".toList (by decide) (by decide) (by decide)
    (by decide)

/-- C13: for every identifier without `'@'`, `getModuleVersion` is the empty string and
`stripModuleVersion` returns the identifier unchanged. -/
theorem no_version (p : Str) (h : '@' ∉ p) :
    getModuleVersion p = [] ∧ stripModuleVersion p = p := by
  refine ⟨?_, stripModuleVersion_of_not_mem p h⟩
  unfold getModuleVersion
  rw [(lastIndexAny_eq_none_iff p '@').2 h]

theorem no_version_witness :
    getModuleVersion "github.com/poloxue/testmod".toList = [] ∧
    stripModuleVersion "github.com/poloxue/testmod".toList
      = "github.com/poloxue/testmod".toList :=
  no_version "github.com/poloxue/testmod".toList (by decide)

end Modv

namespace Modv

/-- With at most one `'@'` the source's `stripModuleVersion` is the spec's
`withoutVersion`. -/
theorem stripModuleVersion_eq_spec (id : Str) (h : id.count '@' ≤ 1) :
    stripModuleVersion id = withoutVersionSpec id := by
  unfold withoutVersionSpec
  by_cases hm : '@' ∈ id
  · obtain ⟨a, b, hab⟩ := List.append_of_mem hm
    subst hab
    have hcount : (a ++ '@' :: b).count '@' = a.count '@' + (b.count '@' + 1) := by
      simp [List.count_append, List.count_cons]
    have ha : '@' ∉ a := by
      rw [← List.count_eq_zero]
      omega
    have hb : '@' ∉ b := by
      rw [← List.count_eq_zero]
      omega
    rw [lastIndexAny_append a b '@' hb, stripModuleVersion_append_version,
      stripModuleVersion_of_not_mem a ha]
    simp
  · rw [(lastIndexAny_eq_none_iff id '@').2 hm, stripModuleVersion_of_not_mem id hm]

/-- C12: on `"a@b@c"` the source's `stripModuleVersion` returns `"a"`, the part before the
first `'@'`, where the identifier with its last `'@'` and what follows removed is `"a@b"`
(while `getModuleVersion` does use the last `'@'` and returns `"c"`); in general
`stripModuleVersion` keeps what stands before the first `'@'`, and `getModulePath` and
`getModuleName` split that value at its last `'/'`. -/
theorem stripModuleVersion_first_at :
    stripModuleVersion "a@b@c".toList = "a".toList ∧
    withoutVersionSpec "a@b@c".toList = "a@b".toList ∧
    getModuleVersion "a@b@c".toList = "c".toList ∧
    getModulePath "x/y@p/q@v".toList = "x".toList ∧
    getModuleName "x/y@p/q@v".toList = "y".toList ∧
    (∀ id : Str, stripModuleVersion id = id.takeWhile (fun c => decide (c ≠ '@'))) ∧
    (∀ id : Str, getModulePath id
        = match lastIndexAny (stripModuleVersion id) '/' with
          | none => []
          | some index => (stripModuleVersion id).take index) ∧
    (∀ id : Str, getModuleName id
        = match lastIndexAny (stripModuleVersion id) '/' with
          | none => stripModuleVersion id
          | some index => (stripModuleVersion id).drop (index + 1)) :=
  ⟨by decide, by decide, by decide, by decide, by decide, stripModuleVersion_eq_takeWhile,
    fun _ => rfl, fun _ => rfl⟩

/-- C20 (identifier round trip): for an identifier with exactly one `'@'`, the stripped
identifier, `'@'` and the version give the identifier back; and when the stripped
identifier contains `'/'`, the path, `'/'` and the name give the stripped identifier. -/
theorem identifier_round_trip (id1 id2 : Str) (h1 : id1.count '@' = 1)
    (h2 : '/' ∈ stripModuleVersion id2) :
    stripModuleVersion id1 ++ '@' :: getModuleVersion id1 = id1 ∧
    getModulePath id2 ++ '/' :: getModuleName id2 = stripModuleVersion id2 := by
  constructor
  · have hm : '@' ∈ id1 := by
      rw [← List.count_pos_iff]
      omega
    obtain ⟨a, b, hab⟩ := List.append_of_mem hm
    subst hab
    have hcount : (a ++ '@' :: b).count '@' = a.count '@' + (b.count '@' + 1) := by
      simp [List.count_append, List.count_cons]
    have ha : '@' ∉ a := by
      rw [← List.count_eq_zero]
      omega
    have hb : '@' ∉ b := by
      rw [← List.count_eq_zero]
      omega
    rw [stripModuleVersion_append_version, stripModuleVersion_of_not_mem a ha,
      getModuleVersion_append a b hb]
  · cases hl : lastIndexAny (stripModuleVersion id2) '/' with
    | none => exact absurd h2 ((lastIndexAny_eq_none_iff _ _).1 hl)
    | some i =>
      have := lastIndexAny_some '/' _ i hl
      unfold getModulePath getModuleName stripModulePath
      simp only [hl]
      exact this

theorem identifier_round_trip_witness :
    stripModuleVersion "rsc.io/quote/v3@v3.1.0".toList
        ++ '@' :: getModuleVersion "rsc.io/quote/v3@v3.1.0".toList
      = "rsc.io/quote/v3@v3.1.0".toList ∧
    getModulePath "rsc.io/quote/v3@v3.1.0".toList
        ++ '/' :: getModuleName "rsc.io/quote/v3@v3.1.0".toList
      = stripModuleVersion "rsc.io/quote/v3@v3.1.0".toList :=
  identifier_round_trip "rsc.io/quote/v3@v3.1.0".toList "rsc.io/quote/v3@v3.1.0".toList
    (by decide) (by decide)

end Modv

namespace Modv

/-! ## Key and fields of a module -/

theorem not_mem_stripModuleVersion (s : Str) : '@' ∉ stripModuleVersion s := by
  rw [stripModuleVersion_eq_takeWhile]
  intro h
  have := List.mem_takeWhile_imp h
  simp at this

theorem stripModuleVersion_idem (s : Str) :
    stripModuleVersion (stripModuleVersion s) = stripModuleVersion s :=
  stripModuleVersion_of_not_mem _ (not_mem_stripModuleVersion s)

theorem getModule_moduleKey (options : ParseOptions) (raw : Str) :
    getModulePath (moduleKey options raw) = getModulePath raw ∧
    getModuleName (moduleKey options raw) = getModuleName raw := by
  unfold moduleKey
  cases options.IgnoreVersion with
  | false => exact ⟨rfl, rfl⟩
  | true =>
    simp only [if_true]
    unfold getModulePath getModuleName
    simp only [stripModuleVersion_idem]
    exact ⟨trivial, trivial⟩

theorem resolveModule_mods (options : ParseOptions) (st st1 : LoopState) (k raw : Str)
    (o : Option Module) (h : resolveModule options st k raw = .ok (st1, o)) :
    ∀ e ∈ st1.Mods, e ∈ st.Mods ∨ e = (k, newModule st.serialID raw) := by
  unfold resolveModule at h
  cases hi : isStringInSortedArray k options.IgnoreModules with
  | error p => rw [hi] at h; exact Except.noConfusion h
  | ok b =>
    rw [hi] at h
    cases b with
    | true =>
      simp only [Except.ok.injEq, Prod.mk.injEq] at h
      rw [← h.1]
      exact fun e he => Or.inl he
    | false =>
      simp only at h
      cases hg : mapGet st.Mods k with
      | some md =>
        rw [hg] at h
        simp only [Except.ok.injEq, Prod.mk.injEq] at h
        rw [← h.1]
        exact fun e he => Or.inl he
      | none =>
        rw [hg] at h
        simp only [Except.ok.injEq, Prod.mk.injEq] at h
        rw [← h.1]
        intro e he
        rcases mem_mapSet _ _ _ _ he with h1 | h1
        · exact Or.inr h1
        · exact Or.inl h1

theorem processRecord_fields (options : ParseOptions) (st : LoopState) (p c : Str)
    (h : ∀ e ∈ st.Mods, e.2.Path = getModulePath e.1 ∧ e.2.Name = getModuleName e.1) :
    ∀ e ∈ (processRecord options st p c).1.Mods,
      e.2.Path = getModulePath e.1 ∧ e.2.Name = getModuleName e.1 := by
  have hkp := getModule_moduleKey options p
  have hkc := getModule_moduleKey options c
  unfold moduleKey at hkp hkc
  unfold processRecord
  simp only
  generalize (if options.IgnoreVersion = true then stripModuleVersion p else p) = kp at hkp ⊢
  generalize (if options.IgnoreVersion = true then stripModuleVersion c else c) = kc at hkc ⊢
  generalize (if st.topModule = [] then kp else st.topModule) = top
  by_cases hc : (options.IgnoreIndirect && decide (top ≠ kp)) = true
  · rw [if_pos hc]
    exact h
  · rw [if_neg hc]
    cases h1 : resolveModule options
        { topModule := top, serialID := st.serialID, Mods := st.Mods,
          Dependencies := st.Dependencies } kp p with
    | error e => exact h
    | ok pr =>
      obtain ⟨st1, md⟩ := pr
      have e1 := resolveModule_mods _ _ _ _ _ _ h1
      have hst1 : ∀ e ∈ st1.Mods,
          e.2.Path = getModulePath e.1 ∧ e.2.Name = getModuleName e.1 := by
        intro e he
        rcases e1 e he with h2 | h2
        · exact h e h2
        · rw [h2]
          exact ⟨hkp.1.symm, hkp.2.symm⟩
      simp only
      cases h2 : resolveModule options st1 kc c with
      | error e => exact hst1
      | ok pr2 =>
        obtain ⟨st2, depmd⟩ := pr2
        have e2 := resolveModule_mods _ _ _ _ _ _ h2
        simp only
        rw [(addDependency_fields st2 md depmd).1]
        intro e he
        rcases e2 e he with h3 | h3
        · exact hst1 e h3
        · rw [h3]
          exact ⟨hkc.1.symm, hkc.2.symm⟩

theorem parseLoop_fields (options : ParseOptions) (failure : Option ReadError) :
    ∀ (chunks : List Str) (st : LoopState),
      (∀ e ∈ st.Mods, e.2.Path = getModulePath e.1 ∧ e.2.Name = getModuleName e.1) →
      ∀ e ∈ (parseLoop options failure st chunks).1.Mods,
        e.2.Path = getModulePath e.1 ∧ e.2.Name = getModuleName e.1
  | [], st, h => h
  | l :: rest, st, h => by
    have h1 : ∀ e ∈ (parseRelation options st l).1.Mods,
        e.2.Path = getModulePath e.1 ∧ e.2.Name = getModuleName e.1 := by
      unfold parseRelation
      split
      · exact processRecord_fields options st _ _ h
      · exact h
    unfold parseLoop
    cases hr : parseRelation options st l with
    | mk st1 op =>
      rw [hr] at h1
      cases op with
      | some p => exact h1
      | none => exact parseLoop_fields options failure rest st1 h1

/-- C19 (key/field consistency): whatever the reader and the options, every entry
`(key, module)` of the module table that `Parse` leaves has `module.Path =
getModulePath(key)` and `module.Name = getModuleName(key)`, with or without version
folding; `stripModuleVersion` is idempotent and its result never contains `'@'`. -/
theorem Parse_key_fields (options : ParseOptions) (r : Reader) :
    (∀ e ∈ (Parse (NewModuleGraph r) options).graph.Mods,
      e.2.Path = getModulePath e.1 ∧ e.2.Name = getModuleName e.1) ∧
    ∀ s : Str, '@' ∉ stripModuleVersion s ∧
      stripModuleVersion (stripModuleVersion s) = stripModuleVersion s := by
  refine ⟨?_, fun s => ⟨not_mem_stripModuleVersion s, stripModuleVersion_idem s⟩⟩
  have h := parseLoop_fields options r.failure r.chunks
    { topModule := [], serialID := 1, Mods := [], Dependencies := [] }
    (fun e he => absurd he (List.not_mem_nil e))
  unfold Parse
  simp only [NewModuleGraph]
  cases hl : parseLoop options r.failure
      { topModule := [], serialID := 1, Mods := [], Dependencies := [] } r.chunks with
  | mk st res =>
    rw [hl] at h
    cases res <;> exact h

theorem Parse_key_fields_witness :
    (newModule 1 "a/b@v1".toList).Path = getModulePath "a/b".toList ∧
    (newModule 1 "a/b@v1".toList).Name = getModuleName "a/b".toList :=
  (Parse_key_fields exampleOptions (bytesReader (encodeRecords true exampleRecords))).1
    ("a/b".toList, newModule 1 "a/b@v1".toList) (by decide)

end Modv

namespace Modv

/-! ## The exclusion lookup -/

theorem stringsAreSorted_of_pairwise :
    ∀ (a : List Str), a.Pairwise (fun x y => strLt y x = false) → stringsAreSorted a = true
  | [], _ => rfl
  | [_], _ => rfl
  | x :: y :: rest, h => by
    rw [List.pairwise_cons] at h
    simp only [stringsAreSorted, Bool.and_eq_true, Bool.not_eq_true']
    exact ⟨h.1 y (by simp), stringsAreSorted_of_pairwise (y :: rest) h.2⟩

/-- C18: for every string `s` and every sorted list `a` (every element is at most the
elements after it; duplicates and the empty list allowed), `isStringInSortedArray(s, a)`
returns without panic, and returns true exactly when `s` is an element of `a`: the binary
search agrees with plain membership.  On the list of the test it finds "World" and
"Three" and does not find "world", "three" and "nope". -/
theorem isStringInSortedArray_iff_mem (s : Str) (a : List Str)
    (hsorted : a.Pairwise (fun x y => strLt y x = false)) :
    isStringInSortedArray s a = .ok (decide (s ∈ a)) ∧
    (isStringInSortedArray s a = .ok true ↔ s ∈ a) ∧
    isStringInSortedArray "World".toList
        ["Hello".toList, "Hello World".toList, "One".toList, "Three".toList, "Two".toList,
          "World".toList] = .ok true ∧
    isStringInSortedArray "Three".toList
        ["Hello".toList, "Hello World".toList, "One".toList, "Three".toList, "Two".toList,
          "World".toList] = .ok true ∧
    isStringInSortedArray "world".toList
        ["Hello".toList, "Hello World".toList, "One".toList, "Three".toList, "Two".toList,
          "World".toList] = .ok false ∧
    isStringInSortedArray "three".toList
        ["Hello".toList, "Hello World".toList, "One".toList, "Three".toList, "Two".toList,
          "World".toList] = .ok false ∧
    isStringInSortedArray "nope".toList
        ["Hello".toList, "Hello World".toList, "One".toList, "Three".toList, "Two".toList,
          "World".toList] = .ok false := by
  have h := isStringInSortedArray_of_sorted s a (stringsAreSorted_of_pairwise a hsorted)
  refine ⟨h, ?_, rfl, rfl, rfl, rfl, rfl⟩
  rw [h]
  constructor
  · intro e
    injection e with e
    exact of_decide_eq_true e
  · intro hm
    rw [decide_eq_true hm]

theorem isStringInSortedArray_iff_mem_witness :
    isStringInSortedArray "b".toList ["a".toList, "b".toList, "b".toList, "c".toList]
      = .ok (decide ("b".toList ∈ ["a".toList, "b".toList, "b".toList, "c".toList])) ∧
    (isStringInSortedArray "b".toList ["a".toList, "b".toList, "b".toList, "c".toList]
      = .ok true ↔ "b".toList ∈ ["a".toList, "b".toList, "b".toList, "c".toList]) ∧
    isStringInSortedArray "World".toList
        ["Hello".toList, "Hello World".toList, "One".toList, "Three".toList, "Two".toList,
          "World".toList] = .ok true ∧
    isStringInSortedArray "Three".toList
        ["Hello".toList, "Hello World".toList, "One".toList, "Three".toList, "Two".toList,
          "World".toList] = .ok true ∧
    isStringInSortedArray "world".toList
        ["Hello".toList, "Hello World".toList, "One".toList, "Three".toList, "Two".toList,
          "World".toList] = .ok false ∧
    isStringInSortedArray "three".toList
        ["Hello".toList, "Hello World".toList, "One".toList, "Three".toList, "Two".toList,
          "World".toList] = .ok false ∧
    isStringInSortedArray "nope".toList
        ["Hello".toList, "Hello World".toList, "One".toList, "Three".toList, "Two".toList,
          "World".toList] = .ok false :=
  isStringInSortedArray_iff_mem "b".toList ["a".toList, "b".toList, "b".toList, "c".toList]
    (by decide)

theorem processRecord_unsorted_state (options : ParseOptions)
    (hns : stringsAreSorted options.IgnoreModules = false) (st : LoopState)
    (htop : st.topModule = []) (p c : Str) :
    processRecord options st p c
      = ({ st with topModule := moduleKey options p },
          some (.message "Strings expected to be sorted")) := by
  unfold processRecord
  simp only [htop, if_true, ne_eq, not_true_eq_false, decide_False, Bool.and_false,
    Bool.false_eq_true, if_false, resolveModule, isStringInSortedArray, hns, Bool.not_false,
    moduleKey]

/-- C17, as the code has it: when the exclusion list is not sorted, the exclusion lookup
panics with "Strings expected to be sorted" whatever the string looked up, and `Parse` on
a non-empty well-formed input panics with it at the first record, leaving no module and no
edge; only on the empty input, where nothing is looked up, does `Parse` return nil. -/
theorem isStringInSortedArray_unsorted (options : ParseOptions) (nl : Bool)
    (r : Str × Str) (rest : List (Str × Str))
    (hns : stringsAreSorted options.IgnoreModules = false)
    (hid : ∀ x ∈ r :: rest, IsIdent x.1 ∧ IsIdent x.2) :
    (∀ s, isStringInSortedArray s options.IgnoreModules
      = .error (.message "Strings expected to be sorted")) ∧
    Parse (NewModuleGraph (bytesReader (encodeRecords nl (r :: rest)))) options
      = .panicked (.message "Strings expected to be sorted")
          (NewModuleGraph (bytesReader (encodeRecords nl (r :: rest)))) ∧
    Parse (NewModuleGraph (bytesReader [])) options
      = .returned none (NewModuleGraph (bytesReader [])) := by
  refine ⟨?_, ?_, rfl⟩
  · intro s
    simp [isStringInSortedArray, hns]
  · have hloop := parseLoop_encode options nl (r :: rest) hid
      { topModule := [], serialID := 1, Mods := [], Dependencies := [] }
    have hp := processRecord_unsorted_state options hns
      { topModule := [], serialID := 1, Mods := [], Dependencies := [] } rfl
      (trimSpace r.1) (trimSpace r.2)
    have hrun : runRecords options
        { topModule := [], serialID := 1, Mods := [], Dependencies := [] }
        (trimRecords (r :: rest))
        = ({ topModule := moduleKey options (trimSpace r.1), serialID := 1, Mods := [],
             Dependencies := [] }, some (.message "Strings expected to be sorted")) := by
      simp only [trimRecords, List.map_cons, runRecords, hp]
    rw [hrun] at hloop
    simp only [Parse, NewModuleGraph, bytesReader, Reader.chunks]
    rw [hloop]

/-- C17, as stated, fails: with the unsorted exclusion list `["b", "a"]` the lookup of "a"
is not answered but panics, and `Parse` on `"a b\n"` does not continue: it panics with
"Strings expected to be sorted". -/
theorem isStringInSortedArray_unsorted_panics :
    isStringInSortedArray "a".toList ["b".toList, "a".toList]
      = .error (.message "Strings expected to be sorted") ∧
    Parse (NewModuleGraph (textReader "a b\n"))
        { IgnoreVersion := false, IgnoreModules := ["b".toList, "a".toList],
          IgnoreIndirect := false }
      = .panicked (.message "Strings expected to be sorted")
          (NewModuleGraph (textReader "a b\n")) ∧
    ¬ ∀ (s : Str) (a : List Str), stringsAreSorted a = false →
        ∃ b, isStringInSortedArray s a = .ok b := by
  refine ⟨rfl, by decide, ?_⟩
  intro h
  obtain ⟨b, hb⟩ := h "a".toList ["b".toList, "a".toList] (by decide)
  have h2 : isStringInSortedArray "a".toList ["b".toList, "a".toList]
      = .error (.message "Strings expected to be sorted") := rfl
  rw [h2] at hb
  exact Except.noConfusion hb

theorem isStringInSortedArray_unsorted_witness :
    (∀ s, isStringInSortedArray s ["b".toList, "a".toList]
      = .error (.message "Strings expected to be sorted")) ∧
    Parse (NewModuleGraph (bytesReader
        (encodeRecords true [("a".toList, "b".toList), ("b".toList, "c".toList)])))
        { IgnoreVersion := false, IgnoreModules := ["b".toList, "a".toList],
          IgnoreIndirect := true }
      = .panicked (.message "Strings expected to be sorted")
          (NewModuleGraph (bytesReader
            (encodeRecords true [("a".toList, "b".toList), ("b".toList, "c".toList)]))) ∧
    Parse (NewModuleGraph (bytesReader []))
        { IgnoreVersion := false, IgnoreModules := ["b".toList, "a".toList],
          IgnoreIndirect := true }
      = .returned none (NewModuleGraph (bytesReader [])) :=
  isStringInSortedArray_unsorted
    { IgnoreVersion := false, IgnoreModules := ["b".toList, "a".toList],
      IgnoreIndirect := true } true ("a".toList, "b".toList) [("b".toList, "c".toList)]
    (by decide) (by simp [IsIdent])

end Modv

namespace Modv

/-! ## The serializer -/

theorem mapSet_keys {κ ν : Type} [DecidableEq κ] (m : List (κ × ν)) (k : κ) (v : ν) :
    (mapSet m k v).map Prod.fst
      = if k ∈ m.map Prod.fst then m.map Prod.fst else m.map Prod.fst ++ [k] := by
  induction m with
  | nil => simp [mapSet]
  | cons x m ih =>
    obtain ⟨k1, v1⟩ := x
    by_cases hk : k1 = k
    · subst hk
      simp [mapSet]
    · have hk1 : ¬ k = k1 := fun e => hk e.symm
      simp only [mapSet, hk, if_false, List.map_cons, ih, List.mem_cons, hk1, false_or]
      by_cases hin : k ∈ m.map Prod.fst
      · simp only [hin, if_true]
      · simp only [hin, if_false, List.cons_append]

theorem nodup_keys_mapSet {κ ν : Type} [DecidableEq κ] (m : List (κ × ν)) (k : κ) (v : ν)
    (h : (m.map Prod.fst).Nodup) : ((mapSet m k v).map Prod.fst).Nodup := by
  rw [mapSet_keys]
  by_cases hin : k ∈ m.map Prod.fst
  · rw [if_pos hin]
    exact h
  · rw [if_neg hin, List.nodup_append]
    refine ⟨h, List.nodup_singleton _, ?_⟩
    intro a ha hb
    rw [List.mem_singleton] at hb
    exact hin (hb ▸ ha)

/-- A property of the adjacency table that holds for the empty table and is kept when an
edge is recorded holds for the graph that `Parse` leaves. -/
theorem Parse_dependencies_invariant (Q : List (Nat × List Nat) → Prop) (h0 : Q [])
    (hstep : ∀ st omd odep, Q st.Dependencies → Q (addDependency st omd odep).Dependencies)
    (options : ParseOptions) (r : Reader) :
    Q (Parse (NewModuleGraph r) options).graph.Dependencies := by
  have hrec : ∀ (st : LoopState) (p c : Str), Q st.Dependencies →
      Q (processRecord options st p c).1.Dependencies := by
    intro st p c h
    unfold processRecord
    simp only
    generalize (if options.IgnoreVersion = true then stripModuleVersion p else p) = kp
    generalize (if options.IgnoreVersion = true then stripModuleVersion c else c) = kc
    generalize (if st.topModule = [] then kp else st.topModule) = top
    by_cases hc : (options.IgnoreIndirect && decide (top ≠ kp)) = true
    · rw [if_pos hc]
      exact h
    · rw [if_neg hc]
      cases h1 : resolveModule options
          { topModule := top, serialID := st.serialID, Mods := st.Mods,
            Dependencies := st.Dependencies } kp p with
      | error e => exact h
      | ok pr =>
        obtain ⟨st1, md⟩ := pr
        have e1 := resolveModule_deps _ _ _ _ _ _ h1
        simp only at e1 ⊢
        cases h2 : resolveModule options st1 kc c with
        | error e =>
          simp only
          rw [e1]
          exact h
        | ok pr2 =>
          obtain ⟨st2, depmd⟩ := pr2
          have e2 := resolveModule_deps _ _ _ _ _ _ h2
          simp only
          apply hstep
          rw [e2, e1]
          exact h
  have hloop : ∀ (chunks : List Str) (st : LoopState), Q st.Dependencies →
      Q (parseLoop options r.failure st chunks).1.Dependencies := by
    intro chunks
    induction chunks with
    | nil => exact fun st h => h
    | cons l rest ih =>
      intro st h
      have h1 : Q (parseRelation options st l).1.Dependencies := by
        unfold parseRelation
        split
        · exact hrec st _ _ h
        · exact h
      unfold parseLoop
      cases hr : parseRelation options st l with
      | mk st1 op =>
        rw [hr] at h1
        cases op with
        | some p => exact h1
        | none => exact ih st1 h1
  have h := hloop r.chunks
    { topModule := [], serialID := 1, Mods := [], Dependencies := [] } h0
  unfold Parse
  simp only [NewModuleGraph]
  cases hl : parseLoop options r.failure
      { topModule := [], serialID := 1, Mods := [], Dependencies := [] } r.chunks with
  | mk st res =>
    rw [hl] at h
    cases res <;> exact h

/-- The adjacency table that `Parse` leaves has every source once. -/
theorem Parse_dependencies_keys_nodup (options : ParseOptions) (r : Reader) :
    ((Parse (NewModuleGraph r) options).graph.Dependencies.map Prod.fst).Nodup := by
  apply Parse_dependencies_invariant (fun deps => (deps.map Prod.fst).Nodup) List.nodup_nil
  intro st omd odep h
  cases omd with
  | none => exact h
  | some md =>
    cases odep with
    | none => exact h
    | some depmd =>
      cases hh : hasDependency st.Dependencies md.ID depmd.ID with
      | true =>
        simp only [addDependency, hh, Bool.not_true, Bool.false_eq_true, if_false]
        exact h
      | false =>
        simp only [addDependency, hh, Bool.not_false, if_true]
        exact nodup_keys_mapSet _ _ _ h

theorem nodeLine_eq (options : RenderOptions) (md : Module) :
    nodeLine options.HidePath options.HideVersion md = '\n' :: nodeStatement options md := by
  unfold nodeLine nodeStatement
  cases options.HidePath <;> cases options.HideVersion <;>
    simp [List.append_assoc]

theorem edgeLines_eq (u : Nat) (l : List Nat) :
    edgeLines u l = l.flatMap (fun v => edgeStatement u v ++ ['\n']) := by
  unfold edgeLines edgeStatement
  congr 1
  funext v
  simp [List.append_assoc]

/-- C14 (layout heuristic): for every module graph (its adjacency table a map: every
source once), the text of `Render` starts with `digraph {rankdir=LR;` if and only if the
adjacency table has more than 15 distinct sources; with 15 sources or fewer it starts
with `digraph {` followed directly by the node-shape directive. -/
theorem Render_layout (m : ModuleGraph) (options : RenderOptions)
    (hmap : (m.Dependencies.map Prod.fst).Nodup) :
    ("digraph \x7brankdir=LR;".toList <+: Render m options ↔
      15 < ((m.Dependencies.map Prod.fst).dedup).length) ∧
    (((m.Dependencies.map Prod.fst).dedup).length ≤ 15 →
      "digraph \x7b\nnode [shape=box];".toList <+: Render m options) := by
  have hlen : ((m.Dependencies.map Prod.fst).dedup).length = m.Dependencies.length := by
    rw [List.Nodup.dedup hmap, List.length_map]
  rw [hlen]
  by_cases h : 15 < m.Dependencies.length
  · refine ⟨⟨fun _ => h, fun _ => ?_⟩, fun h2 => absurd h (by omega)⟩
    unfold Render executeGraphTemplate
    simp only [gt_iff_lt, h, if_true, List.append_assoc]
    exact ⟨_, rfl⟩
  · have hout : "digraph \x7b\nnode [shape=box];".toList <+: Render m options := by
      unfold Render executeGraphTemplate
      simp only [gt_iff_lt, h, if_false, List.append_assoc]
      have hd : ¬ (([] : Str) = "horizontal".toList) := by decide
      simp only [hd, if_false, List.nil_append]
      exact ⟨_, rfl⟩
    refine ⟨⟨fun hp => ?_, fun h2 => absurd h2 h⟩, fun _ => hout⟩
    have := List.prefix_of_prefix_length_le hp hout (by decide)
    exact absurd this (by decide)

theorem Render_layout_witness :
    ("digraph \x7brankdir=LR;".toList <+:
        Render { Reader := bytesReader [], Mods := [],
                 Dependencies := (List.range 16).map (fun i => (i + 1, [i + 2])) }
          { HidePath := false, HideVersion := false } ↔
      15 < ((((List.range 16).map (fun i => (i + 1, [i + 2]))).map Prod.fst).dedup).length) ∧
    (((((List.range 16).map (fun i => (i + 1, [i + 2]))).map Prod.fst).dedup).length ≤ 15 →
      "digraph \x7b\nnode [shape=box];".toList <+:
        Render { Reader := bytesReader [], Mods := [],
                 Dependencies := (List.range 16).map (fun i => (i + 1, [i + 2])) }
          { HidePath := false, HideVersion := false }) :=
  Render_layout
    { Reader := bytesReader [], Mods := [],
      Dependencies := (List.range 16).map (fun i => (i + 1, [i + 2])) }
    { HidePath := false, HideVersion := false } (by decide)

end Modv

namespace Modv

/-- C15 (node statements): for every module table and all render options, the text of
`Render` is the opening of the graph, then one line per module holding its node statement
`<ID> [label="<label>"]` (label: path, `'/'` and name, or the name alone when the path is
hidden; then a line break and the version unless the version is hidden), then the edge
lines and the closing brace; the modules are visited in the order of their keys, each
entry of the table once. -/
theorem Render_nodes (m : ModuleGraph) (options : RenderOptions) :
    Render m options
      = "digraph \x7b".toList
        ++ (if 15 < m.Dependencies.length then "rankdir=LR;".toList else [])
        ++ "\nnode [shape=box];".toList
        ++ (modsInKeyOrder m.Mods).flatMap (fun e => '\n' :: nodeStatement options e.2)
        ++ '\n' :: ((depsInKeyOrder m.Dependencies).flatMap (fun e => edgeLines e.1 e.2)
          ++ "\x7d\n".toList) ∧
    (modsInKeyOrder m.Mods).Perm m.Mods ∧
    ((modsInKeyOrder m.Mods).map (fun e => nodeStatement options e.2)).length = m.Mods.length ∧
    nodeStatement { HidePath := false, HideVersion := false }
        ⟨1, "golang.org/x".toList, "sys".toList, "v0.1".toList⟩
      = "1 [label=\"golang.org/x/sys\nv0.1\"]".toList ∧
    nodeStatement { HidePath := true, HideVersion := true }
        ⟨1, "golang.org/x".toList, "sys".toList, "v0.1".toList⟩
      = "1 [label=\"sys\"]".toList := by
  refine ⟨?_, List.perm_insertionSort _ _, ?_, by decide, by decide⟩
  · unfold Render executeGraphTemplate
    have hn : (fun e : Str × Module => nodeLine options.HidePath options.HideVersion e.2)
        = fun e => '\n' :: nodeStatement options e.2 := by
      funext e
      exact nodeLine_eq options e.2
    rw [hn]
    by_cases h : 15 < m.Dependencies.length
    · simp only [gt_iff_lt, h, if_true, List.append_assoc]
      rfl
    · have hd : ¬ (([] : Str) = "horizontal".toList) := by decide
      simp only [gt_iff_lt, h, if_false, hd, List.append_assoc]
      rfl
  · rw [List.length_map]
    exact (List.perm_insertionSort _ _).length_eq

/-- C16, as the code has it: after the node lines, the text of `Render` is one line
`<sourceId> -> <targetId>;` per (source, target) pair of the adjacency table and no other,
the sources in ascending order of their identifier (the order in which the template visits
a map) and, within one source, the targets in the recorded edge order. -/
theorem Render_edges (m : ModuleGraph) (options : RenderOptions) :
    Render m options
      = "digraph \x7b".toList
        ++ (if 15 < m.Dependencies.length then "rankdir=LR;".toList else [])
        ++ "\nnode [shape=box];".toList
        ++ (modsInKeyOrder m.Mods).flatMap
            (fun e => nodeLine options.HidePath options.HideVersion e.2)
        ++ '\n' :: ((depsInKeyOrder m.Dependencies).flatMap
            (fun e => e.2.flatMap (fun v => edgeStatement e.1 v ++ ['\n']))
          ++ "\x7d\n".toList) ∧
    (depsInKeyOrder m.Dependencies).Perm m.Dependencies ∧
    ((depsInKeyOrder m.Dependencies).map Prod.fst).Sorted (fun a b => a ≤ b) := by
  refine ⟨?_, List.perm_insertionSort _ _, ?_⟩
  · unfold Render executeGraphTemplate
    have he : (fun e : Nat × List Nat => edgeLines e.1 e.2)
        = fun e => e.2.flatMap (fun v => edgeStatement e.1 v ++ ['\n']) := by
      funext e
      exact edgeLines_eq e.1 e.2
    rw [he]
    by_cases h : 15 < m.Dependencies.length
    · simp only [gt_iff_lt, h, if_true, List.append_assoc]
      rfl
    · have hd : ¬ (([] : Str) = "horizontal".toList) := by decide
      simp only [gt_iff_lt, h, if_false, hd, List.append_assoc]
      rfl
  · haveI : IsTotal (Nat × List Nat) (fun a b => a.1 ≤ b.1) :=
      ⟨fun a b => Nat.le_total a.1 b.1⟩
    haveI : IsTrans (Nat × List Nat) (fun a b => a.1 ≤ b.1) :=
      ⟨fun a b c h1 h2 => Nat.le_trans h1 h2⟩
    have hs := List.sorted_insertionSort (fun a b : Nat × List Nat => a.1 ≤ b.1)
      m.Dependencies
    unfold depsInKeyOrder
    unfold List.Sorted at hs ⊢
    rw [List.pairwise_map]
    exact hs

/-- C16, as stated, fails: in the graph of `"a b\nc d\nb e\n"` the sources received their
first edge in the order 1, 3, 2, and `Render` writes the edge lines in the order 1, 2, 3;
so the text of `Render` does not end with the edge statements taken in the insertion order
of the sources. -/
theorem Render_edges_not_insertion_order :
    threeSourcesGraph.Dependencies = [(1, [2]), (3, [4]), (2, [5])] ∧
    Render threeSourcesGraph { HidePath := true, HideVersion := true }
      = ("digraph \x7b\nnode [shape=box];\n1 [label=\"a\"]\n2 [label=\"b\"]\n3 [label=\"c\"]\n"
          ++ "4 [label=\"d\"]\n5 [label=\"e\"]\n1 -> 2;\n2 -> 5;\n3 -> 4;\n\x7d\n").toList ∧
    ¬ ∀ (m : ModuleGraph) (options : RenderOptions), (m.Dependencies.map Prod.fst).Nodup →
        (m.Dependencies.flatMap (fun e => e.2.flatMap (fun v => edgeStatement e.1 v ++ ['\n']))
          ++ "\x7d\n".toList) <:+ Render m options := by
  refine ⟨by decide, by decide, ?_⟩
  intro h
  have h1 := h threeSourcesGraph { HidePath := true, HideVersion := true } (by decide)
  revert h1
  decide

end Modv
